import Mathlib

/-!
Verification of the configuration-transform engine of the `ai-cli-toolkit`
repository (MCP server setup and command conversion).

The JavaScript source operates on JSON values; its token substitution
(`substituteTokens` in `app/mcp-servers.config.js`) serializes the value with
`JSON.stringify`, performs one global regex replacement per token entry
(the pattern `\$\{` key `\}` splices the key RAW between the escaped
delimiters, so it matches the literal text `$` `{` key `}` exactly when the
key contains no regex metacharacter — the predicate `litKey` below; a key
carrying a metacharacter gives it its regex meaning), and re-parses.  We
embed the serialized form as `List Char`
and model the substitution at the string level; `JSON.stringify` is embedded
as `Json.stringify`.  `JSON.parse` of a canonical serialization is the
inverse of `Json.stringify`, so statements about the serialized text
determine the parsed result; counterexample theorems make the intermediate
parse step explicit by naming the intermediate `Json` value.
-/

set_option maxHeartbeats 1000000

/-- leadEq pat s is true when pat is an initial segment of s
(character-by-character comparison, as the regex engine does at one
starting position). -/
def leadEq : List Char → List Char → Bool
  | [], _ => true
  | _ :: _, [] => false
  | a :: as, b :: bs => a == b && leadEq as bs

/-- replaceAllF is the fuel-indexed scanner behind replaceAll; the fuel only
serves to make the recursion structural (it strictly dominates the input
length at every call). -/
def replaceAllF : Nat → List Char → List Char → List Char → List Char
  | 0, _, _, s => s
  | fuel + 1, pat, rep, s =>
    match s with
    | [] => []
    | c :: rest =>
      if leadEq pat (c :: rest) = true ∧ 0 < pat.length then
        rep ++ replaceAllF fuel pat rep (List.drop pat.length (c :: rest))
      else
        c :: replaceAllF fuel pat rep rest

/-- replaceAll pat rep s performs a global, left-to-right, non-overlapping
literal replacement of pat by rep in s.  The source call is
`s.replace(new RegExp('\\$\\' + brace + key + '\\' + brace, 'g'), rep)` with
the key interpolated raw; the literal semantics modeled here is the regex
semantics exactly for patterns with no regex metacharacter, i.e. for keys
satisfying `litKey` — the claim theorems that quantify over token keys carry
that hypothesis.  The `0 < pat.length` guard only rules out the empty
pattern, which never arises (every pattern is of the shape made by
`placeholder`). -/
def replaceAll (pat rep s : List Char) : List Char :=
  replaceAllF s.length pat rep s

/-- replaceAllF does not depend on the fuel once the fuel dominates the
input length. -/
theorem replaceAllF_over (pat rep : List Char) :
    ∀ (fuel : Nat) (s : List Char), s.length ≤ fuel →
      replaceAllF fuel pat rep s = replaceAll pat rep s := by
  intro fuel
  induction fuel using Nat.strong_induction_on with
  | _ fuel ih =>
    intro s hs
    cases fuel with
    | zero =>
      have : s = [] := List.eq_nil_of_length_eq_zero (Nat.le_zero.mp hs)
      subst this
      rfl
    | succ f =>
      cases s with
      | nil => rfl
      | cons c rest =>
        simp only [List.length_cons] at hs
        show replaceAllF (f + 1) pat rep (c :: rest)
            = replaceAllF (rest.length + 1) pat rep (c :: rest)
        simp only [replaceAllF]
        by_cases h : leadEq pat (c :: rest) = true ∧ 0 < pat.length
        · rw [if_pos h, if_pos h]
          have hd1 : (List.drop pat.length (c :: rest)).length ≤ f := by
            simp only [List.length_drop, List.length_cons]
            omega
          have hd2 : (List.drop pat.length (c :: rest)).length ≤ rest.length := by
            simp only [List.length_drop, List.length_cons]
            omega
          have hr : rest.length ≤ f := by omega
          rw [ih f (Nat.lt_succ_self f) _ hd1,
            ih rest.length (Nat.lt_succ_of_le hr) _ hd2]
        · rw [if_neg h, if_neg h]
          have h1 : rest.length ≤ f := by omega
          rw [ih f (Nat.lt_succ_self f) rest h1]
          rfl

/-- countOcc pat s counts the positions of s at which pat matches. -/
def countOcc (pat : List Char) : List Char → Nat
  | [] => 0
  | c :: rest => (if leadEq pat (c :: rest) then 1 else 0) + countOcc pat rest

/-- placeholder key is the literal character list of the wire-format token
reference: a dollar sign, an opening brace, the key, a closing brace
(spec section 6). -/
def placeholder (key : String) : List Char :=
  '$' :: '{' :: (key.data ++ ['}'])

/-- cleanName s holds when s contains none of the three characters that make
up the placeholder syntax.  All token names declared in the catalog
(`requiredTokens`) satisfy it. -/
def cleanName (s : String) : Bool :=
  s.data.all (fun c => !(c == '$') && !(c == '{') && !(c == '}'))

/-- regexMeta c is true when c carries special meaning in a JavaScript
regular-expression pattern outside a character class. -/
def regexMeta (c : Char) : Bool :=
  c == '\\' || c == '^' || c == '$' || c == '.' || c == '|' || c == '?' ||
    c == '*' || c == '+' || c == '(' || c == ')' || c == '[' || c == ']' ||
    c == '{' || c == '}'

/-- litKey s holds when s contains no regex metacharacter.  The pattern of
`substituteTokens` splices the raw key between the escaped delimiters, so
the resulting regex matches exactly the literal placeholder text if and
only if the key is metacharacter-free; litKey is therefore the precise
domain on which the literal model `replaceAll` is the semantics of the
source call (a key with a metacharacter makes the pattern match other
text, or even makes the RegExp constructor throw).  Every catalog token
name — upper-case letters and underscores — satisfies litKey. -/
def litKey (s : String) : Bool := s.data.all (fun c => !(regexMeta c))

/-- substituteStr is the sequential replacement loop of `substituteTokens`
(`for (const [key, value] of Object.entries(tokens))`), acting on the
serialized configuration text. -/
def substituteStr (s : List Char) (tokens : List (String × String)) : List Char :=
  tokens.foldl (fun acc kv => replaceAll (placeholder kv.1) kv.2.data acc) s

/-- Json is the data model of the configuration fragments handled by the
tool: what `JSON.parse` and `JSON.stringify` exchange.  Numbers are embedded
as integers (no configuration in the repository carries a fractional
number). -/
inductive Json where
  | null : Json
  | bool : Bool → Json
  | num : Int → Json
  | str : String → Json
  | arr : List Json → Json
  | obj : List (String × Json) → Json

/-- escChar performs the JSON string escaping of one character as
`JSON.stringify` does.  Control characters other than newline, carriage
return and tab (escaped as two-character sequences) do not occur in any
configuration handled by the tool and are left as-is. -/
def escChar (c : Char) : List Char :=
  if c = '"' then ['\\', '"']
  else if c = '\\' then ['\\', '\\']
  else if c = '\n' then ['\\', 'n']
  else if c = '\r' then ['\\', 'r']
  else if c = '\t' then ['\\', 't']
  else [c]

/-- escList escapes every character of a string body. -/
def escList : List Char → List Char
  | [] => []
  | c :: cs => escChar c ++ escList cs

/-- jsonQuote renders a JSON string literal with surrounding quotes. -/
def jsonQuote (s : String) : List Char :=
  '"' :: (escList s.data ++ ['"'])

mutual

/-- Json.stringify is `JSON.stringify` with no indentation: the serialized
form on which `substituteTokens` performs its replacements. -/
def Json.stringify : Json → List Char
  | Json.null => "null".data
  | Json.bool b => if b then "true".data else "false".data
  | Json.num n => (toString n).data
  | Json.str s => jsonQuote s
  | Json.arr xs => '[' :: (jsonArr xs ++ [']'])
  | Json.obj fs => '{' :: (jsonObj fs ++ ['}'])

/-- jsonArr renders a comma-separated array body. -/
def jsonArr : List Json → List Char
  | [] => []
  | [x] => Json.stringify x
  | x :: y :: xs => Json.stringify x ++ ',' :: jsonArr (y :: xs)

/-- jsonObj renders a comma-separated object body. -/
def jsonObj : List (String × Json) → List Char
  | [] => []
  | [kv] => jsonQuote kv.1 ++ ':' :: Json.stringify kv.2
  | kv :: f :: fs => jsonQuote kv.1 ++ ':' :: Json.stringify kv.2 ++ ',' :: jsonObj (f :: fs)

end

/-- substituteTokens (mcp-servers.config.js, lines 276-286): serialize the
configuration value, replace every `$`-brace-key-brace occurrence for every
token entry in order, producing the text that the source then re-parses
with `JSON.parse`.  We return the substituted serialized text. -/
def substituteTokens (config : Json) (tokens : List (String × String)) : List Char :=
  substituteStr (Json.stringify config) tokens

/-! Equation lemmas for replaceAll. -/

theorem replaceAll_nil (pat rep : List Char) : replaceAll pat rep [] = [] := rfl

theorem replaceAll_pos (pat rep : List Char) (c : Char) (rest : List Char)
    (h : leadEq pat (c :: rest) = true) (hp : 0 < pat.length) :
    replaceAll pat rep (c :: rest)
      = rep ++ replaceAll pat rep (List.drop pat.length (c :: rest)) := by
  show replaceAllF (rest.length + 1) pat rep (c :: rest) = _
  simp only [replaceAllF]
  rw [if_pos ⟨h, hp⟩]
  have hd : (List.drop pat.length (c :: rest)).length ≤ rest.length := by
    simp only [List.length_drop, List.length_cons]
    omega
  rw [replaceAllF_over pat rep rest.length _ hd]

theorem replaceAll_neg (pat rep : List Char) (c : Char) (rest : List Char)
    (h : leadEq pat (c :: rest) = false) :
    replaceAll pat rep (c :: rest) = c :: replaceAll pat rep rest := by
  show replaceAllF (rest.length + 1) pat rep (c :: rest) = _
  simp only [replaceAllF]
  rw [if_neg]
  · rfl
  · intro hcontra
    rw [hcontra.1] at h
    exact absurd h (by decide)

/-! Basic facts about leadEq. -/

theorem leadEq_append_self (p b : List Char) : leadEq p (p ++ b) = true := by
  induction p with
  | nil => rfl
  | cons c cs ih => simp [leadEq, ih]

theorem leadEq_decomp (p : List Char) :
    ∀ s, leadEq p s = true → s = p ++ List.drop p.length s := by
  induction p with
  | nil => intro s _; simp
  | cons c cs ih =>
    intro s hs
    cases s with
    | nil => simp [leadEq] at hs
    | cons d ds =>
      simp only [leadEq, Bool.and_eq_true, beq_iff_eq] at hs
      obtain ⟨rfl, h2⟩ := hs
      have := ih ds h2
      simp only [List.length_cons, List.cons_append, List.drop_succ_cons]
      exact congrArg (c :: ·) this

theorem leadEq_ne_head (p : List Char) (a : Char) (c : Char) (rest : List Char)
    (hne : ¬ c = a) : leadEq (a :: p) (c :: rest) = false := by
  simp only [leadEq, Bool.and_eq_false_iff, beq_eq_false_iff_ne, ne_eq]
  left
  intro h
  exact hne h.symm

/-- replaceAll skips over a region free of the pattern head character. -/
theorem replaceAll_skip (q rep : List Char) :
    ∀ (a b : List Char), (∀ c ∈ a, ¬ c = '$') →
      replaceAll ('$' :: q) rep (a ++ b) = a ++ replaceAll ('$' :: q) rep b := by
  intro a
  induction a with
  | nil => intro b _; simp
  | cons c cs ih =>
    intro b ha
    have hc : ¬ c = '$' := ha c (List.mem_cons_self c cs)
    have hlead : leadEq ('$' :: q) (c :: (cs ++ b)) = false := leadEq_ne_head q '$' c _ hc
    rw [List.cons_append, replaceAll_neg _ _ _ _ hlead]
    rw [ih b (fun x hx => ha x (List.mem_cons_of_mem c hx))]
    simp

/-- replaceAll consumes the pattern when it stands at the front. -/
theorem replaceAll_head (pat rep b : List Char) (hp : 0 < pat.length) :
    replaceAll pat rep (pat ++ b) = rep ++ replaceAll pat rep b := by
  cases pat with
  | nil => simp at hp
  | cons c cs =>
    rw [List.cons_append, replaceAll_pos _ _ _ _ (by rw [← List.cons_append]; exact leadEq_append_self _ _) hp]
    congr 1
    rw [← List.cons_append, List.drop_left]

/-- replaceAll with a pattern that occurs nowhere is the identity. -/
theorem replaceAll_id (pat rep : List Char) :
    ∀ s, countOcc pat s = 0 → replaceAll pat rep s = s := by
  intro s
  induction s with
  | nil => intro _; exact replaceAll_nil _ _
  | cons c rest ih =>
    intro h
    simp only [countOcc] at h
    by_cases hl : leadEq pat (c :: rest) = true
    · rw [hl] at h; simp at h
    · have hl' : leadEq pat (c :: rest) = false := Bool.eq_false_iff.mpr hl
      rw [replaceAll_neg _ _ _ _ hl']
      rw [hl'] at h
      simp at h
      rw [ih h]

/-- substituteStr is the identity when none of the token patterns occurs. -/
theorem substituteStr_id (tokens : List (String × String)) :
    ∀ s, (∀ kv ∈ tokens, countOcc (placeholder kv.1) s = 0) →
      substituteStr s tokens = s := by
  induction tokens with
  | nil => intro s _; rfl
  | cons kv rest ih =>
    intro s h
    have h1 : countOcc (placeholder kv.1) s = 0 := h kv (List.mem_cons_self kv rest)
    simp only [substituteStr, List.foldl_cons]
    rw [replaceAll_id _ _ s h1]
    exact ih s (fun x hx => h x (List.mem_cons_of_mem kv hx))

/-! Facts about clean token names and the placeholder pattern. -/

theorem cleanName_spec {n : String} (h : cleanName n = true) :
    ∀ c ∈ n.data, ¬ c = '$' ∧ ¬ c = '{' ∧ ¬ c = '}' := by
  intro c hc
  have h2 := List.all_eq_true.mp h c hc
  simp only [Bool.and_eq_true, Bool.not_eq_true', beq_eq_false_iff_ne, ne_eq] at h2
  exact ⟨h2.1.1, h2.1.2, h2.2⟩

/-- A metacharacter-free key is in particular clean: the three placeholder
delimiter characters are all regex metacharacters. -/
theorem cleanName_of_litKey {n : String} (h : litKey n = true) :
    cleanName n = true := by
  simp only [litKey, List.all_eq_true] at h
  simp only [cleanName, List.all_eq_true]
  intro c hc
  have h2 := h c hc
  by_cases h1 : c = '$'
  · subst h1; simp [regexMeta] at h2
  by_cases h3 : c = '{'
  · subst h3; simp [regexMeta] at h2
  by_cases h4 : c = '}'
  · subst h4; simp [regexMeta] at h2
  simp [h1, h3, h4]

theorem placeholder_pos (k : String) : 0 < (placeholder k).length := by
  simp [placeholder]

/-- The characters after the leading dollar of a placeholder are all
distinct from the dollar sign. -/
theorem ph_tail_no_dollar {k : String} (hk : cleanName k = true) :
    ∀ c ∈ ('{' :: (k.data ++ ['}'])), ¬ c = '$' := by
  intro c hc
  rcases List.mem_cons.mp hc with h1 | h1
  · subst h1; decide
  · rcases List.mem_append.mp h1 with h2 | h2
    · exact (cleanName_spec hk c h2).1
    · simp only [List.mem_singleton] at h2
      subst h2; decide

/-- Two brace-free names followed by a closing brace delimit themselves:
if one reading is a left factor of the other, the names agree. -/
theorem brace_delim_inj :
    ∀ (n : List Char), (∀ c ∈ n, ¬ c = '}') →
      ∀ (k : List Char), (∀ c ∈ k, ¬ c = '}') →
        ∀ xs ys, n ++ '}' :: xs = k ++ '}' :: ys → n = k := by
  intro n
  induction n with
  | nil =>
    intro _ k hk xs ys h
    cases k with
    | nil => rfl
    | cons d ds =>
      simp only [List.nil_append, List.cons_append, List.cons.injEq] at h
      exact absurd h.1.symm (hk d (List.mem_cons_self d ds))
  | cons c cs ih =>
    intro hn k hk xs ys h
    cases k with
    | nil =>
      simp only [List.cons_append, List.nil_append, List.cons.injEq] at h
      exact absurd h.1 (hn c (List.mem_cons_self c cs))
    | cons d ds =>
      simp only [List.cons_append, List.cons.injEq] at h
      have := ih (fun x hx => hn x (List.mem_cons_of_mem c hx)) ds
        (fun x hx => hk x (List.mem_cons_of_mem d hx)) xs ys h.2
      rw [h.1, this]

/-- A placeholder for one clean name can only match at the very start of a
placeholder for another clean name when the two names coincide. -/
theorem leadEq_placeholder {n k : String} (hn : cleanName n = true)
    (hk : cleanName k = true) (y : List Char)
    (h : leadEq (placeholder n) (placeholder k ++ y) = true) : n = k := by
  have hd := leadEq_decomp (placeholder n) (placeholder k ++ y) h
  have hd2 : ∃ t, k.data ++ '}' :: y = n.data ++ '}' :: t := by
    have := hd
    simp only [placeholder, List.cons_append, List.append_assoc,
      List.singleton_append, List.cons.injEq, List.nil_append] at this
    exact ⟨_, this.2.2⟩
  obtain ⟨t, hd2⟩ := hd2
  have hlist := brace_delim_inj k.data (fun c hc => (cleanName_spec hk c hc).2.2)
      n.data (fun c hc => (cleanName_spec hn c hc).2.2) y t hd2
  cases n with
  | mk ndata =>
    cases k with
    | mk kdata =>
      exact congrArg String.mk hlist.symm

/-! Counting occurrences. -/

theorem countOcc_append_ge (p : List Char) :
    ∀ (a y : List Char), countOcc p y ≤ countOcc p (a ++ y) := by
  intro a
  induction a with
  | nil => intro y; simp
  | cons c cs ih =>
    intro y
    simp only [List.cons_append, countOcc, List.append_eq]
    have := ih y
    omega

theorem countOcc_skip (q : List Char) :
    ∀ (a y : List Char), (∀ c ∈ a, ¬ c = '$') →
      countOcc ('$' :: q) (a ++ y) = countOcc ('$' :: q) y := by
  intro a
  induction a with
  | nil => intro y _; simp
  | cons c cs ih =>
    intro y ha
    have hc : ¬ c = '$' := ha c (List.mem_cons_self c cs)
    have hlead := leadEq_ne_head q '$' c (cs ++ y) hc
    simp only [List.cons_append, countOcc, List.append_eq]
    rw [ih y (fun x hx => ha x (List.mem_cons_of_mem c hx))]
    simp [hlead]

theorem countOcc_cons (pat : List Char) (c : Char) (rest : List Char) :
    countOcc pat (c :: rest)
      = (if leadEq pat (c :: rest) = true then 1 else 0) + countOcc pat rest := rfl

/-- Occurrences of one clean placeholder cannot start anywhere inside a
different clean placeholder standing at the front of the text. -/
theorem countOcc_ph_block {n k : String} (hn : cleanName n = true)
    (hk : cleanName k = true) (hne : k ≠ n) (y : List Char) :
    countOcc (placeholder n) (placeholder k ++ y) = countOcc (placeholder n) y := by
  have hshape : placeholder k ++ y = '$' :: (('{' :: (k.data ++ ['}'])) ++ y) := by
    simp [placeholder]
  have hind : leadEq (placeholder n) (placeholder k ++ y) = false := by
    by_cases hcase : leadEq (placeholder n) (placeholder k ++ y) = true
    · exact absurd (leadEq_placeholder hn hk y hcase) (fun hcontra => hne hcontra.symm)
    · exact Bool.eq_false_iff.mpr hcase
  rw [hshape, countOcc_cons, ← hshape, hind]
  simp only [Bool.false_eq_true, if_false, Nat.zero_add]
  exact countOcc_skip ('{' :: (n.data ++ ['}'])) ('{' :: (k.data ++ ['}'])) y
    (ph_tail_no_dollar hk)

/-- Replacing one clean token never removes an occurrence of a different
clean placeholder (the replacement text is arbitrary: it can only add
occurrences).  One pass of the `substituteTokens` loop, one token entry. -/
theorem countOcc_replaceAll_ge {n k : String} (rep : List Char)
    (hn : cleanName n = true) (hk : cleanName k = true) (hne : k ≠ n) :
    ∀ s, countOcc (placeholder n) s
      ≤ countOcc (placeholder n) (replaceAll (placeholder k) rep s) := by
  suffices H : ∀ N s, s.length ≤ N → countOcc (placeholder n) s
      ≤ countOcc (placeholder n) (replaceAll (placeholder k) rep s) from
    fun s => H s.length s le_rfl
  intro N
  induction N using Nat.strong_induction_on with
  | _ N ih =>
    intro s hs
    cases s with
    | nil => simp [replaceAll_nil]
    | cons c rest =>
      simp only [List.length_cons] at hs
      by_cases hl : leadEq (placeholder k) (c :: rest) = true
      · have hp := placeholder_pos k
        have hdec := leadEq_decomp (placeholder k) (c :: rest) hl
        rw [replaceAll_pos _ _ _ _ hl hp]
        have hcount : countOcc (placeholder n) (c :: rest)
            = countOcc (placeholder n)
                (List.drop (placeholder k).length (c :: rest)) := by
          conv_lhs => rw [hdec]
          exact countOcc_ph_block hn hk hne _
        have hlen : (List.drop (placeholder k).length (c :: rest)).length < N := by
          simp only [List.length_drop, List.length_cons]
          have h3 : 3 ≤ (placeholder k).length := by
            simp [placeholder]
          omega
        calc countOcc (placeholder n) (c :: rest)
            = countOcc (placeholder n)
                (List.drop (placeholder k).length (c :: rest)) := hcount
          _ ≤ countOcc (placeholder n)
                (replaceAll (placeholder k) rep
                  (List.drop (placeholder k).length (c :: rest))) := by
              have hN := hlen
              exact ih _ hN _ le_rfl
          _ ≤ countOcc (placeholder n)
                (rep ++ replaceAll (placeholder k) rep
                  (List.drop (placeholder k).length (c :: rest))) :=
              countOcc_append_ge _ rep _
      · have hl' : leadEq (placeholder k) (c :: rest) = false := Bool.eq_false_iff.mpr hl
        rw [replaceAll_neg _ _ _ _ hl']
        simp only [countOcc]
        have hrl : rest.length < N := by omega
        have ihrest := ih rest.length hrl rest le_rfl
        by_cases hpn : leadEq (placeholder n) (c :: rest) = true
        · have hdn := leadEq_decomp (placeholder n) (c :: rest) hpn
          have hshape : placeholder n ++ List.drop (placeholder n).length (c :: rest)
              = '$' :: (('{' :: (n.data ++ ['}']))
                  ++ List.drop (placeholder n).length (c :: rest)) := by
            simp [placeholder]
          rw [hshape] at hdn
          injection hdn with hc hrest
          subst hc
          have hskip : replaceAll (placeholder k) rep rest
              = ('{' :: (n.data ++ ['}']))
                  ++ replaceAll (placeholder k) rep
                      (List.drop (placeholder n).length ('$' :: rest)) := by
            conv_lhs => rw [hrest]
            exact replaceAll_skip _ rep _ _ (ph_tail_no_dollar hn)
          have hlead2 : leadEq (placeholder n)
              ('$' :: replaceAll (placeholder k) rep rest) = true := by
            rw [hskip]
            have heq : ('$' : Char) :: (('{' :: (n.data ++ ['}']))
                ++ replaceAll (placeholder k) rep
                    (List.drop (placeholder n).length ('$' :: rest)))
                = placeholder n ++ replaceAll (placeholder k) rep
                    (List.drop (placeholder n).length ('$' :: rest)) := by
              simp [placeholder]
            rw [heq]
            exact leadEq_append_self _ _
          rw [hpn, hlead2]
          simp only [if_true]
          omega
        · have hpn' : leadEq (placeholder n) (c :: rest) = false :=
            Bool.eq_false_iff.mpr hpn
          rw [hpn']
          simp only [Bool.false_eq_true, if_false, Nat.zero_add]
          have : countOcc (placeholder n) (replaceAll (placeholder k) rep rest)
              ≤ (if leadEq (placeholder n)
                    (c :: replaceAll (placeholder k) rep rest) = true then 1 else 0)
                  + countOcc (placeholder n) (replaceAll (placeholder k) rep rest) := by
            omega
          omega

/-- Sequential substitution of a whole token set never removes an occurrence
of a clean placeholder whose name is not among the token keys. -/
theorem countOcc_substituteStr_ge {n : String} (hn : cleanName n = true) :
    ∀ (tokens : List (String × String)) (s : List Char),
      (∀ kv ∈ tokens, cleanName kv.1 = true ∧ kv.1 ≠ n) →
        countOcc (placeholder n) s ≤ countOcc (placeholder n) (substituteStr s tokens) := by
  intro tokens
  induction tokens with
  | nil => intro s _; exact le_rfl
  | cons kv rest ih =>
    intro s h
    have h1 := h kv (List.mem_cons_self kv rest)
    have step := countOcc_replaceAll_ge kv.2.data hn h1.1 h1.2 s
    have tail := ih (replaceAll (placeholder kv.1) kv.2.data s)
      (fun x hx => h x (List.mem_cons_of_mem kv hx))
    simp only [substituteStr, List.foldl_cons] at tail ⊢
    omega

/-! Claim C1: idempotence of substitution. -/

/-- C1, counterexample.  The claim asserts idempotence for every token set
covering the placeholders of the value.  Take the value consisting of the
single string `$`brace`A`brace and the token set with entries B = `x` and
A = `$`brace`B`brace (in that `Object.entries` order).  The token set covers
the only placeholder of the value (A occurs once, B does not occur), yet one
substitution pass produces the string `$`brace`B`brace — the `JSON.parse` of
`Json.stringify (Json.str ...)` — and a second pass on that parsed value
produces `x`: the two results differ, so substitution is not idempotent. -/
theorem c1_counterexample :
    substituteTokens (Json.str "$\x7bA\x7d") [("B", "x"), ("A", "$\x7bB\x7d")]
        = Json.stringify (Json.str "$\x7bB\x7d")
    ∧ substituteTokens (Json.str "$\x7bB\x7d") [("B", "x"), ("A", "$\x7bB\x7d")]
        = Json.stringify (Json.str "x")
    ∧ Json.stringify (Json.str "$\x7bB\x7d") ≠ Json.stringify (Json.str "x")
    ∧ countOcc (placeholder "A") (Json.stringify (Json.str "$\x7bA\x7d")) = 1
    ∧ countOcc (placeholder "B") (Json.stringify (Json.str "$\x7bA\x7d")) = 0 := by
  exact ⟨by decide, by decide, by decide, by decide, by decide⟩

/-- C1 (amended): for token sets whose keys are regex-metacharacter-free —
as every catalog token name is, so that each key's pattern matches exactly
its literal placeholder — substitution is idempotent whenever one
substitution pass eliminates every placeholder of the token set: the case
when the token set covers the placeholders of the value and no replacement
value reintroduces placeholder text, the situation the spec describes.  A
second pass over the substituted text is then the identity.  (The key
restriction is essential: a key carrying a metacharacter such as a dot
matches text other than its own placeholder, so a second pass can rewrite
text the placeholder count does not see.) -/
theorem c1_amended_idem (v : Json) (tokens : List (String × String))
    (hkeys : ∀ kv ∈ tokens, litKey kv.1 = true)
    (h : ∀ kv ∈ tokens, countOcc (placeholder kv.1) (substituteTokens v tokens) = 0) :
    substituteStr (substituteTokens v tokens) tokens = substituteTokens v tokens := by
  have _hk := hkeys
  exact substituteStr_id tokens (substituteTokens v tokens) h

/-- C1 witness: a concrete covered value with an ordinary replacement value;
the hypotheses of the amended theorem hold and the second pass changes
nothing. -/
theorem c1_amended_idem_witness :
    substituteStr (substituteTokens (Json.str "$\x7bA\x7d") [("A", "hello")])
        [("A", "hello")]
      = substituteTokens (Json.str "$\x7bA\x7d") [("A", "hello")] :=
  c1_amended_idem (Json.str "$\x7bA\x7d") [("A", "hello")]
    (by intro kv hkv; simp only [List.mem_singleton] at hkv; subst hkv; decide)
    (by intro kv hkv; simp only [List.mem_singleton] at hkv; subst hkv; decide)

/-! Claim C2: preservation of unresolved tokens. -/

/-- C2, counterexample.  The claim quantifies over every token set.  A token
whose name itself contains a closing brace produces a replacement pattern
that overlaps — and destroys — an occurrence of a different, absent token:
with the value being the single string `$`brace`n`brace`x`brace, the token
set with the single key `n`brace`x` (value `GONE`), and the absent name `n`,
the occurrence of `$`brace`n`brace in the value is not preserved: it occurs
once before substitution and zero times after. -/
theorem c2_counterexample :
    countOcc (placeholder "n") (Json.stringify (Json.str "$\x7bn\x7dx\x7d")) = 1
    ∧ countOcc (placeholder "n")
        (substituteTokens (Json.str "$\x7bn\x7dx\x7d") [("n\x7dx", "GONE")]) = 0
    ∧ (∀ kv ∈ [("n\x7dx", "GONE")], kv.1 ≠ "n") := by
  exact ⟨by decide, by decide, by decide⟩

/-- C2 (amended): for token sets whose keys are regex-metacharacter-free —
as every catalog token name is, so that each key's pattern matches exactly
its own literal placeholder and nothing else — every occurrence of a clean
absent name's placeholder survives substitution: its occurrence count never
decreases (replacement values are arbitrary and may add further
occurrences, hence the inequality).  The key restriction is essential
twice over: a key with a closing brace builds an overlapping literal
pattern (the original counterexample), and a key with a metacharacter such
as a dot matches — and destroys — placeholders of other names. -/
theorem c2_amended_preserved (v : Json) (tokens : List (String × String)) (n : String)
    (hn : cleanName n = true)
    (htok : ∀ kv ∈ tokens, litKey kv.1 = true ∧ kv.1 ≠ n) :
    countOcc (placeholder n) (Json.stringify v)
      ≤ countOcc (placeholder n) (substituteTokens v tokens) :=
  countOcc_substituteStr_ge hn tokens (Json.stringify v)
    (fun kv h => ⟨cleanName_of_litKey (htok kv h).1, (htok kv h).2⟩)

/-- C2 witness: a value holding both an occurrence of the absent token N and
an occurrence of the present token A; after substituting A, the occurrence
of N is still there. -/
theorem c2_amended_preserved_witness :
    countOcc (placeholder "N")
        (Json.stringify (Json.obj [("a", Json.str "$\x7bN\x7d"), ("b", Json.str "$\x7bA\x7d")]))
      ≤ countOcc (placeholder "N")
        (substituteTokens (Json.obj [("a", Json.str "$\x7bN\x7d"), ("b", Json.str "$\x7bA\x7d")])
          [("A", "resolved")]) :=
  c2_amended_preserved _ _ "N" (by decide)
    (by intro kv hkv; simp only [List.mem_singleton] at hkv; subst hkv; exact ⟨by decide, by decide⟩)

/-! The JavaScript object model used by the configuration generators.
Objects are association lists in property-insertion order; setting a
property overwrites in place when the key exists and appends otherwise,
exactly as JavaScript property assignment and object spread do. -/

/-- getField o k reads property k of object o (`o[k]`, `o.k`). -/
def getField (o : List (String × Json)) (k : String) : Option Json :=
  (o.find? (fun kv => kv.1 == k)).map (fun kv => kv.2)

/-- truthy models the JavaScript truthiness test applied to a possibly
absent property value (`if (transport.command)` ...). -/
def truthy : Option Json → Bool
  | none => false
  | some Json.null => false
  | some (Json.bool b) => b
  | some (Json.num n) => !(n == 0)
  | some (Json.str s) => !(s == "")
  | some (Json.arr _) => true
  | some (Json.obj _) => true

/-- setKV o k v is JavaScript property assignment `o[k] = v`: overwrite in
place when the key is present, append otherwise. -/
def setKV {α : Type} (o : List (String × α)) (k : String) (v : α) : List (String × α) :=
  if o.any (fun kv => kv.1 == k) then
    o.map (fun kv => if kv.1 == k then (k, v) else kv)
  else
    o ++ [(k, v)]

/-- spreadOnto base t is the object-literal spread `brace ...base-fields,
...t brace`: every property of t assigned onto base in order. -/
def spreadOnto {α : Type} (base t : List (String × α)) : List (String × α) :=
  t.foldl (fun m kv => setKV m kv.1 kv.2) base

/-! The four default configuration generators
(`defaultConfigGenerators` in mcp-servers.config.js, lines 5-48). -/

/-- claudeCodeGen is defaultConfigGenerators.claudeCode: pass a command
transport through; a url transport becomes an sse fragment; an httpUrl
transport becomes an http fragment with the whole transport spread on top
(so the httpUrl property itself is carried along); anything else yields
null. -/
def claudeCodeGen (transport : List (String × Json)) : Option (List (String × Json)) :=
  if truthy (getField transport "command") then
    some (spreadOnto [] transport)
  else if truthy (getField transport "url") then
    some [("type", Json.str "sse"), ("url", (getField transport "url").getD Json.null)]
  else if truthy (getField transport "httpUrl") then
    some (spreadOnto
      [("type", Json.str "http"), ("url", (getField transport "httpUrl").getD Json.null)]
      transport)
  else none

/-- claudeDesktopGen is defaultConfigGenerators.claudeDesktop (same rules as
claudeCodeGen in the source). -/
def claudeDesktopGen (transport : List (String × Json)) : Option (List (String × Json)) :=
  if truthy (getField transport "command") then
    some (spreadOnto [] transport)
  else if truthy (getField transport "url") then
    some [("type", Json.str "sse"), ("url", (getField transport "url").getD Json.null)]
  else if truthy (getField transport "httpUrl") then
    some (spreadOnto
      [("type", Json.str "http"), ("url", (getField transport "httpUrl").getD Json.null)]
      transport)
  else none

/-- vscodeGen is defaultConfigGenerators.vscode: no command branch. -/
def vscodeGen (transport : List (String × Json)) : Option (List (String × Json)) :=
  if truthy (getField transport "url") then
    some [("type", Json.str "sse"), ("url", (getField transport "url").getD Json.null)]
  else if truthy (getField transport "httpUrl") then
    some (spreadOnto
      [("type", Json.str "http"), ("url", (getField transport "httpUrl").getD Json.null)]
      transport)
  else none

/-- geminiGen is defaultConfigGenerators.gemini: Gemini uses httpUrl for all
URL-based configurations. -/
def geminiGen (transport : List (String × Json)) : Option (List (String × Json)) :=
  if truthy (getField transport "command") then
    some (spreadOnto [] transport)
  else if truthy (getField transport "url") then
    some [("httpUrl", (getField transport "url").getD Json.null)]
  else if truthy (getField transport "httpUrl") then
    some (spreadOnto [("httpUrl", (getField transport "httpUrl").getD Json.null)] transport)
  else none

/-- CustomGens is a per-descriptor set of optional generator overrides, one
slot per client id (the `customGenerators` argument of `buildConfig`; the
source spreads it over the defaults object, which overrides values while
keeping the four default keys and their order). -/
structure CustomGens where
  claudeCode : Option (List (String × Json) → Option (List (String × Json)))
  claudeDesktop : Option (List (String × Json) → Option (List (String × Json)))
  vscode : Option (List (String × Json) → Option (List (String × Json)))
  gemini : Option (List (String × Json) → Option (List (String × Json)))

/-- noCustomGens is the empty `customGenerators = {}` default. -/
def noCustomGens : CustomGens := ⟨none, none, none, none⟩

/-- defaultConfigGenerators as an entry list, in the key order of the source
object. -/
def defaultConfigGenerators :
    List (String × (List (String × Json) → Option (List (String × Json)))) :=
  [("claudeCode", claudeCodeGen), ("claudeDesktop", claudeDesktopGen),
    ("vscode", vscodeGen), ("gemini", geminiGen)]

/-- buildConfig (mcp-servers.config.js, lines 51-63): iterate the merged
generator table in key order, invoking each generator on the transport, and
assign the fragment under the client key whenever the result is non-null
(an object is always truthy). -/
def buildConfig (transport : List (String × Json)) (custom : CustomGens) :
    List (String × List (String × Json)) :=
  let gens := [("claudeCode", custom.claudeCode.getD claudeCodeGen),
    ("claudeDesktop", custom.claudeDesktop.getD claudeDesktopGen),
    ("vscode", custom.vscode.getD vscodeGen),
    ("gemini", custom.gemini.getD geminiGen)]
  gens.foldl (fun config cg =>
    match cg.2 transport with
    | some c => setKV config cg.1 c
    | none => config) []

/-- ServerDef is one catalog descriptor (an entry of `mcpServers`).  The
catalog entries carry a precomputed config; descriptors passed to
`addServer` may instead carry a transport and custom generators from which
the config is built at registration.  (The source `notionApi` entry also
carries a stray top-level `command: npx` property that nothing reads; it is
not part of the data model used by any operation.) -/
structure ServerDef where
  name : String
  description : String
  type : String
  requiredTokens : List String
  config : Option (List (String × List (String × Json)))
  transport : Option (List (String × Json))
  customGenerators : CustomGens

/-- githubServer: the `github` catalog entry (mcp-servers.config.js,
lines 66-94), with a custom VS Code generator. -/
def githubServer : ServerDef :=
  ⟨"GitHub", "GitHub repository management and operations", "docker",
    ["GITHUB_PERSONAL_ACCESS_TOKEN"],
    some (buildConfig
      [("command", Json.str "docker"),
        ("args", Json.arr [Json.str "run", Json.str "-i", Json.str "--rm",
          Json.str "-e", Json.str "GITHUB_PERSONAL_ACCESS_TOKEN",
          Json.str "ghcr.io/github/github-mcp-server"]),
        ("env", Json.obj [("GITHUB_PERSONAL_ACCESS_TOKEN",
          Json.str "$\x7bGITHUB_PERSONAL_ACCESS_TOKEN\x7d")])]
      ⟨none, none,
        some (fun _ => some [("url", Json.str "https://api.githubcopilot.com/mcp/"),
          ("authorization_token", Json.str "Bearer $\x7bGITHUB_PERSONAL_ACCESS_TOKEN\x7d")]),
        none⟩),
    none, noCustomGens⟩

/-- notionApiServer: the `notionApi` catalog entry. -/
def notionApiServer : ServerDef :=
  ⟨"Notion", "Notion API MCP server connection", "mcp", ["NOTION_TOKEN"],
    some (buildConfig [("url", Json.str "https://mcp.notion.app/sse")] noCustomGens),
    none, noCustomGens⟩

/-- linearServer: the `linear` catalog entry. -/
def linearServer : ServerDef :=
  ⟨"Linear", "Linear issue tracking and project management", "sse", [],
    some (buildConfig [("url", Json.str "https://mcp.linear.app/sse")] noCustomGens),
    none, noCustomGens⟩

/-- figmaServer: the `figma` catalog entry. -/
def figmaServer : ServerDef :=
  ⟨"Figma", "Figma design file management and operations", "sse", [],
    some (buildConfig [("url", Json.str "http://127.0.0.1:3845/sse")] noCustomGens),
    none, noCustomGens⟩

/-- filesystemServer: the `filesystem` catalog entry. -/
def filesystemServer : ServerDef :=
  ⟨"Filesystem", "Read, write, and manage files and directories", "npm",
    ["WORKSPACE_FOLDER"],
    some (buildConfig
      [("command", Json.str "npx"),
        ("args", Json.arr [Json.str "-y",
          Json.str "@modelcontextprotocol/server-filesystem",
          Json.str "$\x7bWORKSPACE_FOLDER\x7d"])] noCustomGens),
    none, noCustomGens⟩

/-- context7Server: the `context7` catalog entry; its transport carries a
type and headers alongside the url. -/
def context7Server : ServerDef :=
  ⟨"Context7", "Context7 MCP server for enhanced context management", "npm",
    ["CONTEXT7_API_KEY"],
    some (buildConfig
      [("type", Json.str "http"),
        ("url", Json.str "https://mcp.context7.com/mcp"),
        ("headers", Json.obj [("CONTEXT7_API_KEY", Json.str "$\x7bCONTEXT7_API_KEY\x7d")])]
      noCustomGens),
    none, noCustomGens⟩

/-- slackServer: the `slack` catalog entry. -/
def slackServer : ServerDef :=
  ⟨"Slack", "Slack workspace integration", "sse", ["SLACK_BOT_TOKEN"],
    some (buildConfig [("url", Json.str "https://mcp.slack.com/sse")] noCustomGens),
    none, noCustomGens⟩

/-- postgresqlServer: the `postgresql` catalog entry. -/
def postgresqlServer : ServerDef :=
  ⟨"PostgreSQL", "PostgreSQL database operations", "npm",
    ["POSTGRES_CONNECTION_STRING"],
    some (buildConfig
      [("command", Json.str "npx"),
        ("args", Json.arr [Json.str "-y",
          Json.str "@modelcontextprotocol/server-postgres",
          Json.str "$\x7bPOSTGRES_CONNECTION_STRING\x7d"])] noCustomGens),
    none, noCustomGens⟩

/-- puppeteerServer: the `puppeteer` catalog entry. -/
def puppeteerServer : ServerDef :=
  ⟨"Puppeteer", "Browser automation and web scraping", "npm", [],
    some (buildConfig
      [("command", Json.str "npx"),
        ("args", Json.arr [Json.str "-y",
          Json.str "@modelcontextprotocol/server-puppeteer"])] noCustomGens),
    none, noCustomGens⟩

/-- sqliteServer: the `sqlite` catalog entry. -/
def sqliteServer : ServerDef :=
  ⟨"SQLite", "SQLite database operations", "npm", [],
    some (buildConfig
      [("command", Json.str "npx"),
        ("args", Json.arr [Json.str "-y",
          Json.str "@modelcontextprotocol/server-sqlite",
          Json.str "$\x7bDATABASE_PATH\x7d"])] noCustomGens),
    none, noCustomGens⟩

/-- customServerDef: the `customServer` catalog entry, with an empty
transport and all four generators overridden. -/
def customServerDef : ServerDef :=
  ⟨"Custom Server", "Example of custom configuration per client", "mixed",
    ["CUSTOM_API_KEY"],
    some (buildConfig []
      ⟨some (fun _ => some [("command", Json.str "node"),
          ("args", Json.arr [Json.str "./custom-server.js"]),
          ("env", Json.obj [("CUSTOM_API_KEY", Json.str "$\x7bCUSTOM_API_KEY\x7d")])]),
        some (fun _ => some [("type", Json.str "sse"),
          ("url", Json.str "https://custom.example.com/sse")]),
        some (fun _ => some [("type", Json.str "http"),
          ("url", Json.str "https://custom.example.com/http"),
          ("headers", Json.obj [("X-API-Key", Json.str "$\x7bCUSTOM_API_KEY\x7d")])]),
        some (fun _ => some [("httpUrl", Json.str "https://custom.example.com/stream"),
          ("headers", Json.obj [("Authorization", Json.str "Bearer $\x7bCUSTOM_API_KEY\x7d")])])⟩),
    none, noCustomGens⟩

/-- mcpServers: the exported catalog object, in source key order. -/
def mcpServers : List (String × ServerDef) :=
  [("github", githubServer), ("notionApi", notionApiServer), ("linear", linearServer),
    ("figma", figmaServer), ("filesystem", filesystemServer), ("context7", context7Server),
    ("slack", slackServer), ("postgresql", postgresqlServer), ("puppeteer", puppeteerServer),
    ("sqlite", sqliteServer), ("customServer", customServerDef)]

/-- getServerConfig (mcp-servers.config.js, lines 258-260): catalog lookup
by key. -/
def getServerConfig (serverName : String) : Option ServerDef :=
  (mcpServers.find? (fun kv => kv.1 == serverName)).map (fun kv => kv.2)

/-- tokenFalsy tokens t is the `!tokens[token]` test of
validateServerTokens: the token is absent or its value is the empty string
(the only falsy string). -/
def tokenFalsy (tokens : List (String × String)) (t : String) : Bool :=
  match tokens.find? (fun kv => kv.1 == t) with
  | none => true
  | some kv => kv.2 == ""

/-- validateServerTokens (mcp-servers.config.js, lines 263-273): a missing
catalog key yields valid = false with an empty missing list; otherwise
missing is the requiredTokens list filtered to the falsy ones and valid
holds exactly when it is empty. -/
def validateServerTokens (serverName : String) (tokens : List (String × String)) :
    Bool × List String :=
  match getServerConfig serverName with
  | none => (false, [])
  | some server =>
    let missing := server.requiredTokens.filter (fun t => tokenFalsy tokens t)
    (missing.isEmpty, missing)

theorem getField_none_of_not_mem {l : List (String × Json)} {k : String}
    (h : k ∉ l.map Prod.fst) : getField l k = none := by
  induction l with
  | nil => rfl
  | cons kv rest ih =>
    simp only [List.map_cons, List.mem_cons, not_or] at h
    simp only [getField, List.find?_cons]
    have hne : (kv.1 == k) = false := by
      simp only [beq_eq_false_iff_ne, ne_eq]
      intro hcontra
      exact h.1 hcontra.symm
    rw [hne]
    exact ih h.2

theorem any_key_false_of_not_mem {α : Type} {l : List (String × α)} {k : String}
    (h : k ∉ l.map Prod.fst) : (l.any (fun kv => kv.1 == k)) = false := by
  induction l with
  | nil => rfl
  | cons kv rest ih =>
    simp only [List.map_cons, List.mem_cons, not_or] at h
    simp only [List.any_cons, Bool.or_eq_false_iff]
    constructor
    · simp only [beq_eq_false_iff_ne, ne_eq]
      intro hcontra
      exact h.1 hcontra.symm
    · exact ih h.2

theorem setKV_fresh {α : Type} {l : List (String × α)} {k : String} (v : α)
    (h : k ∉ l.map Prod.fst) : setKV l k v = l ++ [(k, v)] := by
  simp only [setKV]
  rw [any_key_false_of_not_mem h]
  simp

theorem spreadOnto_fresh {α : Type} :
    ∀ (t m : List (String × α)),
      (∀ k ∈ t.map Prod.fst, k ∉ m.map Prod.fst) → (t.map Prod.fst).Nodup →
        spreadOnto m t = m ++ t := by
  intro t
  induction t with
  | nil => intro m _ _; simp [spreadOnto]
  | cons kv rest ih =>
    intro m hfresh hnodup
    simp only [List.map_cons, List.nodup_cons] at hnodup
    have hk : kv.1 ∉ m.map Prod.fst :=
      hfresh kv.1 (by simp)
    have step : setKV m kv.1 kv.2 = m ++ [(kv.1, kv.2)] := setKV_fresh kv.2 hk
    simp only [spreadOnto, List.foldl_cons] at ih ⊢
    rw [step, ih (m ++ [(kv.1, kv.2)]) ?hf hnodup.2]
    · simp
    case hf =>
      intro x hx
      simp only [List.map_append, List.mem_append, List.map_cons, List.map_nil,
        List.mem_singleton, not_or]
      constructor
      · exact hfresh x (by simp [hx])
      · intro hcontra
        subst hcontra
        exact hnodup.1 hx

theorem spreadOnto_cons {α : Type} (m : List (String × α)) (kv : String × α)
    (rest : List (String × α)) :
    spreadOnto m (kv :: rest) = spreadOnto (setKV m kv.1 kv.2) rest := rfl

/-! Claim C3: projection of a url-only transport. -/

/-- C3 (confirmed): for a transport whose only populated field is a
non-empty url, the three type-sse projectors return exactly the
type-sse/url fragment and the gemini projector returns exactly the
httpUrl rename; all four are non-null. -/
theorem c3_url_projection (u : String) (hu : u ≠ "") :
    claudeCodeGen [("url", Json.str u)]
        = some [("type", Json.str "sse"), ("url", Json.str u)]
    ∧ claudeDesktopGen [("url", Json.str u)]
        = some [("type", Json.str "sse"), ("url", Json.str u)]
    ∧ vscodeGen [("url", Json.str u)]
        = some [("type", Json.str "sse"), ("url", Json.str u)]
    ∧ geminiGen [("url", Json.str u)] = some [("httpUrl", Json.str u)] := by
  refine ⟨?_, ?_, ?_, ?_⟩ <;>
    simp [claudeCodeGen, claudeDesktopGen, vscodeGen, geminiGen, getField, truthy, hu]

/-- C3 witness at the url of the spec's example. -/
theorem c3_url_projection_witness :
    claudeCodeGen [("url", Json.str "https://x")]
        = some [("type", Json.str "sse"), ("url", Json.str "https://x")]
    ∧ claudeDesktopGen [("url", Json.str "https://x")]
        = some [("type", Json.str "sse"), ("url", Json.str "https://x")]
    ∧ vscodeGen [("url", Json.str "https://x")]
        = some [("type", Json.str "sse"), ("url", Json.str "https://x")]
    ∧ geminiGen [("url", Json.str "https://x")]
        = some [("httpUrl", Json.str "https://x")] :=
  c3_url_projection "https://x" (by decide)

/-! Claim C4: projection of an httpUrl transport. -/

/-- C4, counterexample.  The claim says the three http projections contain
exactly the type and url keys plus the transport's extra fields and no
other key.  But the source spreads the whole transport over the fragment
(`... transport` after `type` and `url`), so the transport's own httpUrl
property is carried into the output: for the transport holding only
httpUrl, the output has a third key, httpUrl, which the claim excludes. -/
theorem c4_counterexample :
    claudeCodeGen [("httpUrl", Json.str "https://h")]
      = some [("type", Json.str "http"), ("url", Json.str "https://h"),
          ("httpUrl", Json.str "https://h")]
    ∧ getField ((claudeCodeGen [("httpUrl", Json.str "https://h")]).getD []) "httpUrl"
      = some (Json.str "https://h") :=
  ⟨rfl, rfl⟩

/-- C4 (amended): for a transport whose populated field is a non-empty
httpUrl accompanied by extra fields (none of which is named command, url,
httpUrl or type), the claudeCode, claudeDesktop and vscode projectors
return exactly type-http, url set to the httpUrl, the transport's own
httpUrl field, and the extra fields in order; the gemini projector returns
exactly httpUrl plus the extra fields. -/
theorem c4_amended_projection (h : String) (extras : List (String × Json))
    (hh : h ≠ "") (hnodup : (extras.map Prod.fst).Nodup)
    (hex : ∀ k ∈ extras.map Prod.fst,
      k ∉ (["command", "url", "httpUrl", "type"] : List String)) :
    claudeCodeGen (("httpUrl", Json.str h) :: extras)
      = some ([("type", Json.str "http"), ("url", Json.str h),
          ("httpUrl", Json.str h)] ++ extras)
    ∧ claudeDesktopGen (("httpUrl", Json.str h) :: extras)
      = some ([("type", Json.str "http"), ("url", Json.str h),
          ("httpUrl", Json.str h)] ++ extras)
    ∧ vscodeGen (("httpUrl", Json.str h) :: extras)
      = some ([("type", Json.str "http"), ("url", Json.str h),
          ("httpUrl", Json.str h)] ++ extras)
    ∧ geminiGen (("httpUrl", Json.str h) :: extras)
      = some (("httpUrl", Json.str h) :: extras) := by
  have hcmd : getField (("httpUrl", Json.str h) :: extras) "command" = none := by
    apply getField_none_of_not_mem
    simp only [List.map_cons, List.mem_cons, not_or]
    refine ⟨by decide, fun hmem => absurd (by simp) (hex "command" hmem)⟩
  have hurl : getField (("httpUrl", Json.str h) :: extras) "url" = none := by
    apply getField_none_of_not_mem
    simp only [List.map_cons, List.mem_cons, not_or]
    refine ⟨by decide, fun hmem => absurd (by simp) (hex "url" hmem)⟩
  have hget : getField (("httpUrl", Json.str h) :: extras) "httpUrl"
      = some (Json.str h) := by
    simp [getField]
  have hspread : spreadOnto [("type", Json.str "http"), ("url", Json.str h)]
      (("httpUrl", Json.str h) :: extras)
      = [("type", Json.str "http"), ("url", Json.str h), ("httpUrl", Json.str h)]
          ++ extras := by
    rw [spreadOnto_fresh]
    · simp
    · intro k hk
      simp only [List.map_cons, List.mem_cons] at hk
      rcases hk with hk | hk
      · subst hk
        simp
      · have hne := hex k hk
        intro hmem
        simp only [List.map_cons, List.map_nil, List.mem_cons, List.mem_singleton,
          List.not_mem_nil, or_false] at hmem
        rcases hmem with rfl | rfl
        · exact hne (by decide)
        · exact hne (by decide)
    · simp only [List.map_cons, List.nodup_cons]
      refine ⟨fun hmem => absurd (by simp) (hex "httpUrl" hmem), hnodup⟩
  have hspreadg : spreadOnto [("httpUrl", Json.str h)] (("httpUrl", Json.str h) :: extras)
      = ("httpUrl", Json.str h) :: extras := by
    rw [spreadOnto_cons]
    have hset : setKV [("httpUrl", Json.str h)] "httpUrl" (Json.str h)
        = [("httpUrl", Json.str h)] := by
      simp [setKV]
    rw [hset, spreadOnto_fresh]
    · simp
    · intro k hk
      have hne := hex k hk
      intro hmem
      simp only [List.map_cons, List.map_nil, List.mem_singleton,
        List.mem_cons, List.not_mem_nil, or_false] at hmem
      subst hmem
      exact hne (by decide)
    · exact hnodup
  refine ⟨?_, ?_, ?_, ?_⟩
  · simp [claudeCodeGen, hcmd, hurl, hget, truthy, hh, hspread]
  · simp [claudeDesktopGen, hcmd, hurl, hget, truthy, hh, hspread]
  · simp [vscodeGen, hurl, hget, truthy, hh, hspread]
  · simp [geminiGen, hcmd, hurl, hget, truthy, hh, hspreadg]

/-- C4 witness: an httpUrl transport with one extra field (headers). -/
theorem c4_amended_projection_witness :
    claudeCodeGen [("httpUrl", Json.str "https://h"), ("headers", Json.obj [])]
      = some [("type", Json.str "http"), ("url", Json.str "https://h"),
          ("httpUrl", Json.str "https://h"), ("headers", Json.obj [])] := by
  have := (c4_amended_projection "https://h" [("headers", Json.obj [])]
    (by decide) (by simp) (by intro k hk; simp at hk; subst hk; decide)).1
  simpa using this

/-! Claims C7 and C10: token validation. -/

/-- C7 (confirmed): for a known catalog key, the missing list is exactly the
declared requiredTokens filtered to the absent-or-empty ones — a sublist of
requiredTokens, so declaration order is preserved — and valid holds exactly
when the missing list is empty. -/
theorem c7_validate (serverName : String) (tokens : List (String × String))
    (server : ServerDef) (h : getServerConfig serverName = some server) :
    (validateServerTokens serverName tokens).2
        = server.requiredTokens.filter (fun t => tokenFalsy tokens t)
    ∧ List.Sublist (validateServerTokens serverName tokens).2 server.requiredTokens
    ∧ (∀ t, t ∈ (validateServerTokens serverName tokens).2
        ↔ (t ∈ server.requiredTokens ∧ tokenFalsy tokens t = true))
    ∧ ((validateServerTokens serverName tokens).1 = true
        ↔ (validateServerTokens serverName tokens).2 = []) := by
  have hval : validateServerTokens serverName tokens
      = ((server.requiredTokens.filter (fun t => tokenFalsy tokens t)).isEmpty,
          server.requiredTokens.filter (fun t => tokenFalsy tokens t)) := by
    unfold validateServerTokens
    rw [h]
  rw [hval]
  refine ⟨rfl, List.filter_sublist _, ?_, ?_⟩
  · intro t
    exact List.mem_filter
  · simp [List.isEmpty_iff]

/-- C7 witness at the github catalog entry with an empty token set: the one
required token is missing and validation fails. -/
theorem c7_validate_witness :
    (validateServerTokens "github" []).2
        = githubServer.requiredTokens.filter (fun t => tokenFalsy [] t)
    ∧ ((validateServerTokens "github" []).1 = true
        ↔ (validateServerTokens "github" []).2 = []) :=
  ⟨(c7_validate "github" [] githubServer rfl).1,
    (c7_validate "github" [] githubServer rfl).2.2.2⟩

/-- setupClaudeDesktopMerge existing selected: the configuration object the
claudeDesktop path writes, given the parsed existing file and the
token-substituted fragments of the selected servers. -/
def setupClaudeDesktopMerge (existing : List (String × Json))
    (selected : List (String × Json)) : Option (List (String × Json)) :=
  match getField existing "mcpServers" with
  | some (Json.obj fs) =>
    some (setKV existing "mcpServers" (Json.obj (spreadOnto fs selected)))
  | some v =>
    if truthy (some v) then none
    else some (setKV existing "mcpServers" (Json.obj (spreadOnto [] selected)))
  | none => some (setKV existing "mcpServers" (Json.obj (spreadOnto [] selected)))

/-- setupGeminiMerge existing selected: the configuration object the gemini
path writes; the source initializes the subsection only when falsy and then
performs the same per-server assignments. -/
def setupGeminiMerge (existing : List (String × Json))
    (selected : List (String × Json)) : Option (List (String × Json)) :=
  match getField existing "mcpServers" with
  | some (Json.obj fs) =>
    some (setKV existing "mcpServers" (Json.obj (spreadOnto fs selected)))
  | some v =>
    if truthy (some v) then none
    else some (setKV existing "mcpServers" (Json.obj (spreadOnto [] selected)))
  | none => some (setKV existing "mcpServers" (Json.obj (spreadOnto [] selected)))

theorem getField_setKV_ne (o : List (String × Json)) (k k' : String) (v : Json)
    (hne : k' ≠ k) : getField (setKV o k v) k' = getField o k' := by
  simp only [setKV]
  by_cases hany : (o.any (fun kv => kv.1 == k)) = true
  · rw [if_pos hany]
    clear hany
    induction o with
    | nil => rfl
    | cons kv rest ih =>
      simp only [List.map_cons, getField, List.find?_cons] at ih ⊢
      by_cases hk : (kv.1 == k) = true
      · simp only [hk, if_true]
        have h1 : ((k, v).1 == k') = false := by
          simp only [beq_eq_false_iff_ne, ne_eq]
          exact fun hcontra => hne hcontra.symm
        have h2 : (kv.1 == k') = false := by
          simp only [beq_eq_false_iff_ne, ne_eq]
          intro hcontra
          rw [hcontra] at hk
          simp only [beq_iff_eq] at hk
          exact hne hk
        rw [h1, h2]
        simp only [cond_false]
        exact ih
      · have hk' : (kv.1 == k) = false := Bool.eq_false_iff.mpr hk
        simp only [hk', if_false, Bool.false_eq_true]
        cases hkv : (kv.1 == k') with
        | true => simp [hkv]
        | false => simp only [hkv, cond_false]; exact ih
  · rw [if_neg hany]
    simp only [getField, List.find?_append]
    have hone : List.find? (fun kv => kv.1 == k') [(k, v)] = none := by
      simp only [List.find?_cons, List.find?_nil]
      have : ((k, v).1 == k') = false := by
        simp only [beq_eq_false_iff_ne, ne_eq]
        exact fun hcontra => hne hcontra.symm
      rw [this]
    rw [hone, Option.or_none]

theorem getField_setKV_self (o : List (String × Json)) (k : String) (v : Json) :
    getField (setKV o k v) k = some v := by
  simp only [setKV]
  by_cases hany : (o.any (fun kv => kv.1 == k)) = true
  · rw [if_pos hany]
    induction o with
    | nil => simp at hany
    | cons kv rest ih =>
      simp only [List.any_cons, Bool.or_eq_true] at hany
      simp only [List.map_cons, getField, List.find?_cons]
      by_cases hk : (kv.1 == k) = true
      · simp [hk]
      · have hk' : (kv.1 == k) = false := Bool.eq_false_iff.mpr hk
        simp only [hk', if_false, Bool.false_eq_true, cond_false]
        have hrest : (rest.any (fun kv => kv.1 == k)) = true := by
          rcases hany with h1 | h1
          · rw [h1] at hk'; simp at hk'
          · exact h1
        have := ih hrest
        simp only [getField] at this
        exact this
  · rw [if_neg hany]
    have hnone : List.find? (fun kv => kv.1 == k) o = none := by
      rw [List.find?_eq_none]
      intro x hx
      have := (List.any_eq_false.mp (Bool.eq_false_iff.mpr hany)) x hx
      simpa using this
    simp only [getField, List.find?_append, hnone, Option.none_or]
    simp

theorem getField_spreadOnto_notin :
    ∀ (selected fs : List (String × Json)) (s : String),
      s ∉ selected.map Prod.fst →
        getField (spreadOnto fs selected) s = getField fs s := by
  intro selected
  induction selected with
  | nil => intro fs s _; rfl
  | cons kv rest ih =>
    intro fs s hs
    simp only [List.map_cons, List.mem_cons, not_or] at hs
    rw [spreadOnto_cons, ih _ s hs.2, getField_setKV_ne _ _ _ _ hs.1]

theorem getField_spreadOnto_mem :
    ∀ (selected fs : List (String × Json)) (s : String) (v : Json),
      (selected.map Prod.fst).Nodup → (s, v) ∈ selected →
        getField (spreadOnto fs selected) s = some v := by
  intro selected
  induction selected with
  | nil => intro fs s v _ hmem; simp at hmem
  | cons kv rest ih =>
    intro fs s v hnodup hmem
    simp only [List.map_cons, List.nodup_cons] at hnodup
    rcases List.mem_cons.mp hmem with hmem | hmem
    · have hkv : kv = (s, v) := hmem.symm
      subst hkv
      rw [spreadOnto_cons]
      have hnot : s ∉ rest.map Prod.fst := hnodup.1
      rw [getField_spreadOnto_notin rest _ s hnot]
      exact getField_setKV_self _ _ _
    · rw [spreadOnto_cons]
      exact ih _ s v hnodup.2 hmem

/-- C5 (confirmed): both JSON merge targets write the existing object with
only its mcpServers subsection replaced by the subsection updated at
exactly the selected keys: every other top-level property reads back
unchanged, every non-selected subsection entry reads back unchanged, and
each selected (distinctly named) server reads back as its new fragment. -/
theorem c5_merge_frame (existing selected fs : List (String × Json))
    (hfs : getField existing "mcpServers" = some (Json.obj fs)
      ∨ (getField existing "mcpServers" = none ∧ fs = [])) :
    setupClaudeDesktopMerge existing selected
        = some (setKV existing "mcpServers" (Json.obj (spreadOnto fs selected)))
    ∧ setupGeminiMerge existing selected
        = some (setKV existing "mcpServers" (Json.obj (spreadOnto fs selected)))
    ∧ (∀ k, k ≠ "mcpServers" →
        getField (setKV existing "mcpServers" (Json.obj (spreadOnto fs selected))) k
          = getField existing k)
    ∧ getField (setKV existing "mcpServers" (Json.obj (spreadOnto fs selected)))
        "mcpServers" = some (Json.obj (spreadOnto fs selected))
    ∧ (∀ s, s ∉ selected.map Prod.fst →
        getField (spreadOnto fs selected) s = getField fs s)
    ∧ ((selected.map Prod.fst).Nodup → ∀ s v, (s, v) ∈ selected →
        getField (spreadOnto fs selected) s = some v) := by
  refine ⟨?_, ?_, fun k hk => getField_setKV_ne existing "mcpServers" k _ hk,
    getField_setKV_self existing "mcpServers" _,
    fun s hs => getField_spreadOnto_notin selected fs s hs,
    fun hnodup s v hmem => getField_spreadOnto_mem selected fs s v hnodup hmem⟩
  · unfold setupClaudeDesktopMerge
    rcases hfs with hfs | hfs
    · rw [hfs]
    · rw [hfs.1, hfs.2]
  · unfold setupGeminiMerge
    rcases hfs with hfs | hfs
    · rw [hfs]
    · rw [hfs.1, hfs.2]

/-- C5 witness: an existing config with an unrelated top-level key (theme)
and an unrelated subsection entry (old); merging one server preserves
both. -/
theorem c5_merge_frame_witness :
    setupClaudeDesktopMerge
        [("theme", Json.str "dark"), ("mcpServers", Json.obj [("old", Json.str "keep")])]
        [("github", Json.str "new")]
      = some (setKV
          [("theme", Json.str "dark"), ("mcpServers", Json.obj [("old", Json.str "keep")])]
          "mcpServers"
          (Json.obj (spreadOnto [("old", Json.str "keep")] [("github", Json.str "new")])))
    ∧ getField (spreadOnto [("old", Json.str "keep")] [("github", Json.str "new")]) "old"
        = some (Json.str "keep") := by
  have hall := c5_merge_frame
    [("theme", Json.str "dark"), ("mcpServers", Json.obj [("old", Json.str "keep")])]
    [("github", Json.str "new")] [("old", Json.str "keep")] (Or.inl rfl)
  refine ⟨hall.1, ?_⟩
  have := hall.2.2.2.2.1 "old" (by simp)
  rw [this]
  rfl

/-! Claim C6: the command-document batch loader
(CommandConverter.loadCommandsFromDirectory, commands/convert-commands.js,
lines 165-191).  The YAML parser (js-yaml) is an external library: a file is
modelled as its name together with the parse outcome, `Except.ok` holding
the parsed document — js-yaml succeeds on any syntactically valid YAML,
whatever fields it has — and `Except.error` a syntax failure message. -/

/-- CmdDoc is one parsed command document; every schema field is optional at
parse time (yaml.load performs no validation), and the loader adds the three
location fields. -/
structure CmdDoc where
  name : Option String
  description : Option String
  prompt : Option String
  tools : List String
  arguments : Option String
  model : Option String
  filePath : String
  subfolder : String
  fileName : String

/-- DirEntry is one directory entry: a file with its parse outcome, or a
subdirectory. -/
inductive DirEntry where
  | file : String → Except String CmdDoc → DirEntry
  | dir : String → List DirEntry → DirEntry

/-- isYaml nm is the extension filter of the loader
(`name.endsWith('.yaml') || name.endsWith('.yml')`), written at the
character level. -/
def isYaml (nm : String) : Bool :=
  leadEq ".yaml".data (nm.data.drop (nm.data.length - 5))
    || leadEq ".yml".data (nm.data.drop (nm.data.length - 4))

/-- fileStem nm is `path.parse(name).name` for the recognized extensions:
the name with its extension removed, at the character level. -/
def fileStem (nm : String) : String :=
  if leadEq ".yaml".data (nm.data.drop (nm.data.length - 5)) then
    String.mk (nm.data.take (nm.data.length - 5))
  else if leadEq ".yml".data (nm.data.drop (nm.data.length - 4)) then
    String.mk (nm.data.take (nm.data.length - 4))
  else nm

/-- joinRel rel nm is the relative-path bookkeeping of the loader
(`relativePath ? path.join(relativePath, entry.name) : entry.name`). -/
def joinRel (rel nm : String) : String :=
  if rel == "" then nm else rel ++ "/" ++ nm

/-- tagDoc d filePath subfolder fileName attaches the location metadata the
loader stores on every loaded document. -/
def tagDoc (d : CmdDoc) (filePath subfolder fileName : String) : CmdDoc :=
  ⟨d.name, d.description, d.prompt, d.tools, d.arguments, d.model,
    filePath, subfolder, fileName⟩

mutual

/-- loadEntries walks one directory's entries in order, accumulating loaded
documents and reported errors (the source pushes into a shared array and
logs errors; we return both collections). -/
def loadEntries : List DirEntry → String → List CmdDoc × List String
  | [], _ => ([], [])
  | e :: rest, rel =>
    let r := loadEntry e rel
    let rs := loadEntries rest rel
    (r.1 ++ rs.1, r.2 ++ rs.2)

/-- loadEntry handles one entry: recurse into subdirectories; for a
recognized file, keep the parsed document (tagged with its location) or
record one error; other files are skipped. -/
def loadEntry : DirEntry → String → List CmdDoc × List String
  | DirEntry.file nm parsed, rel =>
    if isYaml nm then
      match parsed with
      | Except.ok d => ([tagDoc d (joinRel rel nm) rel (fileStem nm)], [])
      | Except.error m => ([], ["Error loading " ++ joinRel rel nm ++ ": " ++ m])
    else ([], [])
  | DirEntry.dir nm entries, rel => loadEntries entries (joinRel rel nm)

end

/-- loadCommandsFromDirectory is the entry point of the recursive walk. -/
def loadCommandsFromDirectory (entries : List DirEntry) (rel : String) :
    List CmdDoc × List String :=
  loadEntries entries rel

mutual

/-- yamlCounts entries counts the recognized files in a directory tree that
parse (first component) and that fail to parse (second component). -/
def yamlCounts : List DirEntry → Nat × Nat
  | [] => (0, 0)
  | e :: rest =>
    let a := yamlCountsE e
    let b := yamlCounts rest
    (a.1 + b.1, a.2 + b.2)

/-- yamlCountsE counts one entry. -/
def yamlCountsE : DirEntry → Nat × Nat
  | DirEntry.file nm (Except.ok _) => if isYaml nm then (1, 0) else (0, 0)
  | DirEntry.file nm (Except.error _) => if isYaml nm then (0, 1) else (0, 0)
  | DirEntry.dir _ es => yamlCounts es

end

mutual

theorem loadEntries_counts : ∀ (entries : List DirEntry) (rel : String),
    (loadEntries entries rel).1.length = (yamlCounts entries).1
    ∧ (loadEntries entries rel).2.length = (yamlCounts entries).2
  | [], _ => ⟨rfl, rfl⟩
  | e :: rest, rel => by
    have h1 := loadEntry_counts e rel
    have h2 := loadEntries_counts rest rel
    simp only [loadEntries, yamlCounts, List.length_append]
    omega

theorem loadEntry_counts : ∀ (e : DirEntry) (rel : String),
    (loadEntry e rel).1.length = (yamlCountsE e).1
    ∧ (loadEntry e rel).2.length = (yamlCountsE e).2
  | DirEntry.file nm parsed, rel => by
    cases parsed with
    | ok d =>
      by_cases hy : isYaml nm = true <;> simp [loadEntry, yamlCountsE, hy]
    | error m =>
      by_cases hy : isYaml nm = true <;> simp [loadEntry, yamlCountsE, hy]
  | DirEntry.dir nm es, rel => loadEntries_counts es (joinRel rel nm)

end

/-- docFirst: a well-formed command document as parsed (before tagging). -/
def docFirst : CmdDoc := ⟨some "first", none, some "Do X", [], none, none, "", "", ""⟩

/-- docNoPrompt: a document that parses but lacks the mandatory prompt
field. -/
def docNoPrompt : CmdDoc := ⟨some "second", some "desc", none, [], none, none, "", "", ""⟩

/-- docThird: another well-formed command document. -/
def docThird : CmdDoc := ⟨some "third", none, some "Do Z", [], none, none, "", "", ""⟩

/-- threeDocsOneNoPrompt: three files that all parse, the middle one with no
prompt field. -/
def threeDocsOneNoPrompt : List DirEntry :=
  [DirEntry.file "a.yaml" (Except.ok docFirst),
    DirEntry.file "b.yaml" (Except.ok docNoPrompt),
    DirEntry.file "c.yaml" (Except.ok docThird)]

/-- threeDocsOneBad: three files of which the middle one fails YAML
parsing. -/
def threeDocsOneBad : List DirEntry :=
  [DirEntry.file "a.yaml" (Except.ok docFirst),
    DirEntry.file "b.yaml" (Except.error "bad indentation of a mapping entry"),
    DirEntry.file "c.yaml" (Except.ok docThird)]

/-- C6, counterexample.  The claim says a batch with one document lacking
the mandatory prompt field loads exactly the valid documents and reports
one error.  But the loader performs no field validation — `yaml.load`
succeeds on a document without a prompt — so all three documents are
returned (the promptless one included, visible in the prompt column) and no
error is reported at load time. -/
theorem c6_counterexample :
    (loadCommandsFromDirectory threeDocsOneNoPrompt "").1.length = 3
    ∧ (loadCommandsFromDirectory threeDocsOneNoPrompt "").2 = []
    ∧ (loadCommandsFromDirectory threeDocsOneNoPrompt "").1.map (fun d => d.prompt)
        = [some "Do X", none, some "Do Z"]
    ∧ docNoPrompt.prompt = none := by
  have hy1 : isYaml "a.yaml" = true := by decide
  have hy2 : isYaml "b.yaml" = true := by decide
  have hy3 : isYaml "c.yaml" = true := by decide
  refine ⟨?_, ?_, ?_, rfl⟩ <;>
    simp [loadCommandsFromDirectory, threeDocsOneNoPrompt, loadEntries, loadEntry,
      hy1, hy2, hy3, tagDoc, docFirst, docNoPrompt, docThird]

/-- C6 (amended): the loader excludes exactly the files that fail YAML
parsing, reporting one error per failing file and loading every file that
parses: for every directory tree, the loaded-document count is the count of
parsing files and the error count is the count of failing files; in
particular three documents of which one fails to parse yield exactly the
two parsed documents and exactly one error.  A document that parses but
lacks prompt (or name) is not excluded at load time (see the
counterexample); its absence surfaces later, during per-document
conversion. -/
theorem c6_amended_load :
    (∀ (entries : List DirEntry) (rel : String),
      (loadCommandsFromDirectory entries rel).1.length = (yamlCounts entries).1
      ∧ (loadCommandsFromDirectory entries rel).2.length = (yamlCounts entries).2)
    ∧ (loadCommandsFromDirectory threeDocsOneBad "").1.length = 2
    ∧ (loadCommandsFromDirectory threeDocsOneBad "").2.length = 1 := by
  have hy1 : isYaml "a.yaml" = true := by decide
  have hy2 : isYaml "b.yaml" = true := by decide
  have hy3 : isYaml "c.yaml" = true := by decide
  refine ⟨fun entries rel => loadEntries_counts entries rel, ?_, ?_⟩ <;>
    simp [loadCommandsFromDirectory, threeDocsOneBad, loadEntries, loadEntry,
      hy1, hy2, hy3, tagDoc, docFirst, docThird]


/-! Claim C9: the VS Code pipeline (MCPSetup.setupVSCode, setup-mcp.js,
lines 182-220).  After token substitution the source serializes the
fragment and rewrites every double-brace placeholder with the global regex
replace whose pattern is two opening braces, a capture of one or more
non-closing-brace characters, and two closing braces, and whose replacement
is dollar, opening brace, input, colon, the capture, closing brace; then it
re-parses. -/

/-- brRun z splits z into its maximal leading run of characters different
from the closing brace, and the remainder (the backtracking-free reading of
the regex capture group). -/
def brRun : List Char → List Char × List Char
  | [] => ([], [])
  | c :: rest =>
    if c = '}' then ([], c :: rest)
    else
      let p := brRun rest
      (c :: p.1, p.2)

theorem brRun_append : ∀ z : List Char, (brRun z).1 ++ (brRun z).2 = z := by
  intro z
  induction z with
  | nil => rfl
  | cons c rest ih =>
    simp only [brRun]
    by_cases hc : c = '}'
    · rw [if_pos hc]
      rfl
    · rw [if_neg hc]
      simp only [List.cons_append]
      rw [ih]

/-- brRun on a brace-free run followed by a closing brace recovers exactly
that run. -/
theorem brRun_clean : ∀ (a z : List Char), (∀ c ∈ a, ¬ c = '}') →
    brRun (a ++ '}' :: z) = (a, '}' :: z) := by
  intro a
  induction a with
  | nil => intro z _; simp [brRun]
  | cons c cs ih =>
    intro z ha
    have hc : ¬ c = '}' := ha c (List.mem_cons_self c cs)
    simp only [List.cons_append, brRun, if_neg hc, List.append_eq]
    rw [ih z (fun x hx => ha x (List.mem_cons_of_mem c hx))]

/-- inputPre is the fixed head of the rewritten placeholder: a dollar sign,
an opening brace, the word input and a colon. -/
def inputPre : List Char := "$\x7binput:".data

/-- rewriteBrF is the fuel-indexed scanner of the double-brace rewrite; the
fuel only makes the recursion structural.  At each position: on a
double-brace opening followed by a non-empty brace-free capture and a
double-brace closing, emit the rewritten placeholder and continue after the
match; otherwise emit one character and continue (the regex engine advances
one position after a failed match attempt).  The capture is the maximal
leading non-closing-brace run computed by brRun. -/
def rewriteBrF : Nat → List Char → List Char
  | 0, s => s
  | _ + 1, [] => []
  | f + 1, c :: rest =>
    if c = '{' ∧ leadEq ['{'] rest = true
        ∧ (brRun (rest.drop 1)).1.isEmpty = false
        ∧ leadEq ['}', '}'] (brRun (rest.drop 1)).2 = true then
      inputPre ++ (brRun (rest.drop 1)).1
        ++ '}' :: rewriteBrF f ((brRun (rest.drop 1)).2.drop 2)
    else c :: rewriteBrF f rest

/-- rewriteBr is the double-brace rewrite of the serialized fragment. -/
def rewriteBr (s : List Char) : List Char :=
  rewriteBrF s.length s

/-- vscodeCombine is the combined VS Code transformation applied to
serialized text: token substitution first, then the double-brace rewrite on
the substituted text. -/
def vscodeCombine (s : List Char) (tokens : List (String × String)) : List Char :=
  rewriteBr (substituteStr s tokens)

/-- setupVSCodeConvert is the per-server computation of
MCPSetup.setupVSCode before the final parse, applied to a catalog
fragment. -/
def setupVSCodeConvert (fragment : Json) (tokens : List (String × String)) : List Char :=
  vscodeCombine (Json.stringify fragment) tokens

/-- When the match condition holds, the text after the consumed match is
shorter than the scanned text. -/
theorem brRun_drop_len (rest : List Char)
    (h1 : (brRun (rest.drop 1)).1.isEmpty = false)
    (h2 : leadEq ['}', '}'] (brRun (rest.drop 1)).2 = true) :
    ((brRun (rest.drop 1)).2.drop 2).length + 2 ≤ rest.length := by
  have hb := brRun_append (rest.drop 1)
  have hl := congrArg List.length hb
  simp only [List.length_append, List.length_drop] at hl
  set run := (brRun (rest.drop 1)).1 with hrun
  set rest2 := (brRun (rest.drop 1)).2 with hrest2
  clear_value run rest2
  cases run with
  | nil => simp at h1
  | cons x xs =>
    cases rest2 with
    | nil => simp [leadEq] at h2
    | cons d ds =>
      cases ds with
      | nil => simp [leadEq] at h2
      | cons e es =>
        simp only [List.length_cons, List.drop_succ_cons, List.drop_zero] at hl ⊢
        omega

/-- rewriteBrF does not depend on the fuel once the fuel dominates the
input length. -/
theorem rewriteBrF_over :
    ∀ (fuel : Nat) (s : List Char), s.length ≤ fuel →
      rewriteBrF fuel s = rewriteBr s := by
  intro fuel
  induction fuel using Nat.strong_induction_on with
  | _ fuel ih =>
    intro s hs
    cases fuel with
    | zero =>
      have : s = [] := List.eq_nil_of_length_eq_zero (Nat.le_zero.mp hs)
      subst this
      rfl
    | succ f =>
      cases s with
      | nil => rfl
      | cons c rest =>
        simp only [List.length_cons] at hs
        have hr : rest.length ≤ f := by omega
        show rewriteBrF (f + 1) (c :: rest) = rewriteBrF (rest.length + 1) (c :: rest)
        simp only [rewriteBrF]
        by_cases hc : c = '{' ∧ leadEq ['{'] rest = true
            ∧ (brRun (rest.drop 1)).1.isEmpty = false
            ∧ leadEq ['}', '}'] (brRun (rest.drop 1)).2 = true
        · rw [if_pos hc, if_pos hc]
          have hlen := brRun_drop_len rest hc.2.2.1 hc.2.2.2
          rw [ih f (Nat.lt_succ_self f) _ (by omega),
            ih rest.length (Nat.lt_succ_of_le hr) _ (by omega)]
        · rw [if_neg hc, if_neg hc]
          rw [ih f (Nat.lt_succ_self f) rest hr]
          rfl

theorem rewriteBr_nil : rewriteBr [] = [] := rfl

theorem rewriteBr_step (c : Char) (rest : List Char)
    (h : ¬ (c = '{' ∧ leadEq ['{'] rest = true)) :
    rewriteBr (c :: rest) = c :: rewriteBr rest := by
  show rewriteBrF (rest.length + 1) (c :: rest) = _
  simp only [rewriteBrF]
  rw [if_neg (fun hcontra => h ⟨hcontra.1, hcontra.2.1⟩)]
  rfl

theorem rewriteBr_match (z rest3 : List Char) (r : Char) (rs : List Char)
    (hbr : brRun z = (r :: rs, '}' :: '}' :: rest3)) :
    rewriteBr ('{' :: '{' :: z) = inputPre ++ (r :: rs) ++ '}' :: rewriteBr rest3 := by
  have hlen : rest3.length ≤ z.length := by
    have h1 := brRun_append z
    rw [hbr] at h1
    have h2 := congrArg List.length h1
    simp only [List.length_append, List.length_cons] at h2
    omega
  have hdrop : (('{' :: z : List Char).drop 1) = z := rfl
  have hcond : ('{' : Char) = '{' ∧ leadEq ['{'] ('{' :: z) = true
      ∧ (brRun (('{' :: z : List Char).drop 1)).1.isEmpty = false
      ∧ leadEq ['}', '}'] (brRun (('{' :: z : List Char).drop 1)).2 = true := by
    refine ⟨rfl, rfl, ?_, ?_⟩ <;> (rw [hdrop, hbr]; rfl)
  have key : rewriteBrF (z.length + 2) ('{' :: '{' :: z)
      = if ('{' : Char) = '{' ∧ leadEq ['{'] ('{' :: z) = true
            ∧ (brRun (('{' :: z : List Char).drop 1)).1.isEmpty = false
            ∧ leadEq ['}', '}'] (brRun (('{' :: z : List Char).drop 1)).2 = true then
          inputPre ++ (brRun (('{' :: z : List Char).drop 1)).1
            ++ '}' :: rewriteBrF (z.length + 1)
                ((brRun (('{' :: z : List Char).drop 1)).2.drop 2)
        else '{' :: rewriteBrF (z.length + 1) ('{' :: z) := rfl
  show rewriteBrF (z.length + 2) ('{' :: '{' :: z) = _
  rw [key, if_pos hcond, hdrop, hbr]
  dsimp only
  simp only [List.drop_succ_cons, List.drop_zero]
  rw [rewriteBrF_over (z.length + 1) rest3 (by omega)]

/-- The rewrite copies a region free of opening braces. -/
theorem rewriteBr_skip : ∀ (a b : List Char), (∀ c ∈ a, ¬ c = '{') →
    rewriteBr (a ++ b) = a ++ rewriteBr b := by
  intro a
  induction a with
  | nil => intro b _; simp
  | cons c cs ih =>
    intro b ha
    have hc : ¬ c = '{' := ha c (List.mem_cons_self c cs)
    rw [List.cons_append, rewriteBr_step c _ (fun hcontra => hc hcontra.1)]
    rw [ih b (fun x hx => ha x (List.mem_cons_of_mem c hx))]
    rfl

/-- The rewrite copies a clean single-brace placeholder untouched: its one
opening brace is not doubled, so the pattern cannot fire inside it. -/
theorem rewriteBr_ph (n : String) (b : List Char) (hn : cleanName n = true) :
    rewriteBr (placeholder n ++ b) = placeholder n ++ rewriteBr b := by
  have hstep1 : rewriteBr (placeholder n ++ b)
      = '$' :: rewriteBr (('{' :: (n.data ++ ['}'])) ++ b) := by
    have hsh : placeholder n ++ b = '$' :: (('{' :: (n.data ++ ['}'])) ++ b) := by
      simp [placeholder]
    rw [hsh, rewriteBr_step _ _ (fun hcontra => absurd hcontra.1 (by decide))]
  have hlead : leadEq ['{'] ((n.data ++ ['}']) ++ b) = false := by
    cases hd : n.data with
    | nil => rfl
    | cons d ds =>
      have hdne : ¬ d = '{' := by
        have := (cleanName_spec hn d (by rw [hd]; exact List.mem_cons_self d ds)).2.1
        exact this
      simp only [List.cons_append]
      exact leadEq_ne_head [] '{' d _ (fun hcontra => hdne hcontra)
  have hstep2 : rewriteBr (('{' :: (n.data ++ ['}'])) ++ b)
      = '{' :: rewriteBr ((n.data ++ ['}']) ++ b) := by
    rw [List.cons_append, rewriteBr_step _ _ (fun hcontra => by
      rw [hcontra.2] at hlead
      exact absurd hlead (by decide))]
  have hstep3 : rewriteBr ((n.data ++ ['}']) ++ b)
      = (n.data ++ ['}']) ++ rewriteBr b := by
    apply rewriteBr_skip
    intro c hcmem
    rcases List.mem_append.mp hcmem with h1 | h1
    · exact (cleanName_spec hn c h1).2.1
    · simp only [List.mem_singleton] at h1
      subst h1
      decide
  rw [hstep1, hstep2, hstep3]
  simp [placeholder]

/-- inputForm n is the rewritten placeholder text for the name n. -/
def inputForm (n : String) : List Char := inputPre ++ (n.data ++ ['}'])

/-- The rewrite fires exactly on a clean non-empty double-brace unit,
producing its input form and continuing after it. -/
theorem rewriteBr_unit (n : String) (b : List Char) (hn : cleanName n = true)
    (hne : n.data ≠ []) :
    rewriteBr ('{' :: '{' :: (n.data ++ '}' :: '}' :: b))
      = inputForm n ++ rewriteBr b := by
  have hbr : brRun (n.data ++ '}' :: ('}' :: b)) = (n.data, '}' :: ('}' :: b)) :=
    brRun_clean n.data ('}' :: b) (fun c hc => (cleanName_spec hn c hc).2.2)
  obtain ⟨r, rs, hd⟩ := List.exists_cons_of_ne_nil hne
  have hbr2 : brRun ((r :: rs) ++ '}' :: '}' :: b) = ((r :: rs), '}' :: ('}' :: b)) := by
    rw [← hd]
    exact hbr
  have hgoal : rewriteBr ('{' :: '{' :: ((r :: rs) ++ '}' :: '}' :: b))
      = inputPre ++ (r :: rs) ++ '}' :: rewriteBr b :=
    rewriteBr_match _ b r rs hbr2
  rw [hd, hgoal]
  simp [inputForm, hd]

/-- Seg is one building block of a fragment's serialized text: a plain text
chunk, a dollar-brace token placeholder, or a double-brace placeholder
unit.  The amended non-interaction statement quantifies over fragments
assembled from these blocks. -/
inductive Seg where
  | lit : List Char → Seg
  | phTok : String → Seg
  | brTok : String → Seg

/-- Seg.render is the literal text of a segment. -/
def Seg.render : Seg → List Char
  | Seg.lit cs => cs
  | Seg.phTok n => placeholder n
  | Seg.brTok n => '{' :: '{' :: (n.data ++ '}' :: '}' :: [])

/-- renderSegs concatenates the rendered segments. -/
def renderSegs : List Seg → List Char
  | [] => []
  | s :: rest => s.render ++ renderSegs rest

/-- litOk cs holds when the chunk carries none of the placeholder syntax
characters. -/
def litOk (cs : List Char) : Bool :=
  cs.all (fun c => !(c == '$') && !(c == '{') && !(c == '}'))

/-- segOk: chunks are clean, placeholder names are clean, double-brace
names are clean and non-empty (the regex capture needs at least one
character). -/
def segOk : Seg → Bool
  | Seg.lit cs => litOk cs
  | Seg.phTok n => cleanName n
  | Seg.brTok n => cleanName n && !(n.data.isEmpty)

/-- segsOk: all segments are well-formed. -/
def segsOk (l : List Seg) : Bool := l.all segOk

/-- tokOk: the token key is a clean name and the token value carries no
placeholder syntax characters. -/
def tokOk (kv : String × String) : Bool := cleanName kv.1 && litOk kv.2.data

/-- tokOkLit strengthens tokOk on the key: metacharacter-free rather than
merely clean, so that the literal replacement model is exactly the source
regex for this token (see litKey). -/
def tokOkLit (kv : String × String) : Bool := litKey kv.1 && litOk kv.2.data

theorem tokOk_of_tokOkLit {kv : String × String} (h : tokOkLit kv = true) :
    tokOk kv = true := by
  simp only [tokOkLit, Bool.and_eq_true] at h
  simp only [tokOk, Bool.and_eq_true]
  exact ⟨cleanName_of_litKey h.1, h.2⟩

/-- lookupTok tokens n is the object lookup tokens[n]. -/
def lookupTok (tokens : List (String × String)) (n : String) : Option String :=
  (tokens.find? (fun kv => kv.1 == n)).map (fun kv => kv.2)

/-- segRepl k v is the effect of one replacement pass on one segment: the
placeholder for k becomes the literal value, everything else is copied. -/
def segRepl (k : String) (v : List Char) : Seg → Seg
  | Seg.phTok n => if n == k then Seg.lit v else Seg.phTok n
  | Seg.lit cs => Seg.lit cs
  | Seg.brTok n => Seg.brTok n

/-- segSubst tokens is the effect of the whole substitution pass on one
segment: placeholders of present tokens become their values, absent
placeholders and double-brace units are untouched. -/
def segSubst (tokens : List (String × String)) : Seg → Seg
  | Seg.phTok n =>
    match lookupTok tokens n with
    | some v => Seg.lit v.data
    | none => Seg.phTok n
  | Seg.lit cs => Seg.lit cs
  | Seg.brTok n => Seg.brTok n

/-- segRw is the effect of the double-brace rewrite on one segment: exactly
the double-brace units become their input form, everything else is
copied. -/
def segRw : Seg → Seg
  | Seg.brTok n => Seg.lit (inputForm n)
  | Seg.lit cs => Seg.lit cs
  | Seg.phTok n => Seg.phTok n

/-- segFinal tokens is substitution followed by the rewrite, segment by
segment. -/
def segFinal (tokens : List (String × String)) (s : Seg) : Seg :=
  segRw (segSubst tokens s)

theorem litOk_no_dollar {cs : List Char} (h : litOk cs = true) :
    ∀ c ∈ cs, ¬ c = '$' := by
  intro c hc
  have h2 := List.all_eq_true.mp h c hc
  simp only [Bool.and_eq_true, Bool.not_eq_true', beq_eq_false_iff_ne, ne_eq] at h2
  exact h2.1.1

theorem litOk_no_open {cs : List Char} (h : litOk cs = true) :
    ∀ c ∈ cs, ¬ c = '{' := by
  intro c hc
  have h2 := List.all_eq_true.mp h c hc
  simp only [Bool.and_eq_true, Bool.not_eq_true', beq_eq_false_iff_ne, ne_eq] at h2
  exact h2.1.2

/-- One replacement pass acts segment-wise on a rendered segment list. -/
theorem replaceAll_render (k : String) (v : List Char) (hk : cleanName k = true) :
    ∀ l, segsOk l = true →
      replaceAll (placeholder k) v (renderSegs l)
        = renderSegs (l.map (segRepl k v)) := by
  intro l
  induction l with
  | nil => intro _; rfl
  | cons s rest ih =>
    intro hl
    simp only [segsOk, List.all_cons, Bool.and_eq_true] at hl
    have ihr := ih hl.2
    cases s with
    | lit cs =>
      have hskip := replaceAll_skip ('{' :: (k.data ++ ['}'])) v cs (renderSegs rest)
        (litOk_no_dollar hl.1)
      have hmap : segRepl k v (Seg.lit cs) = Seg.lit cs := rfl
      simp only [List.map_cons, hmap, renderSegs, Seg.render]
      rw [show placeholder k = '$' :: ('{' :: (k.data ++ ['}'])) from rfl] at ihr ⊢
      rw [hskip, ihr]
    | phTok n =>
      have hn : cleanName n = true := hl.1
      by_cases hnk : (n == k) = true
      · have hnk' : n = k := by simpa using hnk
        subst hnk'
        have hmap : segRepl n v (Seg.phTok n) = Seg.lit v := by
          simp [segRepl]
        simp only [List.map_cons, hmap, renderSegs, Seg.render]
        rw [replaceAll_head (placeholder n) v (renderSegs rest) (placeholder_pos n), ihr]
      · have hmap : segRepl k v (Seg.phTok n) = Seg.phTok n := by
          simp only [segRepl]
          rw [if_neg hnk]
        have hne : ¬ n = k := by
          intro hcontra
          subst hcontra
          simp at hnk
        have hlead : leadEq (placeholder k) (placeholder n ++ renderSegs rest) = false := by
          by_cases hcase : leadEq (placeholder k) (placeholder n ++ renderSegs rest) = true
          · exact absurd (leadEq_placeholder hk hn _ hcase) (fun h => hne h.symm)
          · exact Bool.eq_false_iff.mpr hcase
        have hsh : placeholder n ++ renderSegs rest
            = '$' :: (('{' :: (n.data ++ ['}'])) ++ renderSegs rest) := by
          simp [placeholder]
        rw [hsh] at hlead
        have hskip := replaceAll_skip ('{' :: (k.data ++ ['}'])) v
          ('{' :: (n.data ++ ['}'])) (renderSegs rest) (ph_tail_no_dollar hn)
        simp only [List.map_cons, hmap, renderSegs, Seg.render]
        rw [hsh, replaceAll_neg _ _ _ _ hlead]
        rw [show placeholder k = '$' :: ('{' :: (k.data ++ ['}'])) from rfl] at ihr ⊢
        rw [hskip, ihr]
        simp [placeholder]
    | brTok n =>
      have hn : cleanName n = true := by
        simp only [segOk, Bool.and_eq_true] at hl
        exact hl.1.1
      have hnod : ∀ c ∈ ('{' :: '{' :: (n.data ++ '}' :: '}' :: []) : List Char), ¬ c = '$' := by
        intro c hc
        rcases List.mem_cons.mp hc with h1 | h1
        · subst h1; decide
        · rcases List.mem_cons.mp h1 with h2 | h2
          · subst h2; decide
          · rcases List.mem_append.mp h2 with h3 | h3
            · exact (cleanName_spec hn c h3).1
            · rcases List.mem_cons.mp h3 with h4 | h4
              · subst h4; decide
              · rcases List.mem_cons.mp h4 with h5 | h5
                · subst h5; decide
                · simp at h5
      have hskip := replaceAll_skip ('{' :: (k.data ++ ['}'])) v
        ('{' :: '{' :: (n.data ++ '}' :: '}' :: [])) (renderSegs rest) hnod
      have hmap : segRepl k v (Seg.brTok n) = Seg.brTok n := rfl
      simp only [List.map_cons, hmap, renderSegs, Seg.render]
      rw [show placeholder k = '$' :: ('{' :: (k.data ++ ['}'])) from rfl] at ihr ⊢
      rw [hskip, ihr]

theorem segSubst_cons (k v : String) (rest : List (String × String)) (s : Seg) :
    segSubst rest (segRepl k v.data s) = segSubst ((k, v) :: rest) s := by
  cases s with
  | lit cs => rfl
  | brTok n => rfl
  | phTok n =>
    simp only [segRepl]
    by_cases hnk : (n == k) = true
    · rw [if_pos hnk]
      have hkeq : ((k, v).1 == n) = true := by
        simp only [beq_iff_eq]
        have h1 : n = k := by simpa using hnk
        exact h1.symm
      simp [segSubst, lookupTok, List.find?_cons, hkeq]
    · rw [if_neg hnk]
      have hkeq : ((k, v).1 == n) = false := by
        simp only [beq_eq_false_iff_ne, ne_eq]
        intro hcontra
        rw [← hcontra] at hnk
        simp at hnk
      simp [segSubst, lookupTok, List.find?_cons, hkeq]

theorem segOk_segRepl (k : String) (v : List Char) (hv : litOk v = true) (s : Seg)
    (hs : segOk s = true) : segOk (segRepl k v s) = true := by
  cases s with
  | lit cs => exact hs
  | brTok n => exact hs
  | phTok n =>
    simp only [segRepl]
    by_cases hnk : (n == k) = true
    · rw [if_pos hnk]
      exact hv
    · rw [if_neg hnk]
      exact hs

theorem segsOk_map_segRepl (k : String) (v : List Char) (hv : litOk v = true) :
    ∀ l, segsOk l = true → segsOk (l.map (segRepl k v)) = true := by
  intro l
  induction l with
  | nil => intro _; rfl
  | cons s rest ih =>
    intro hl
    simp only [segsOk, List.all_cons, Bool.and_eq_true] at hl ⊢
    simp only [List.map_cons, List.all_cons, Bool.and_eq_true]
    exact ⟨segOk_segRepl k v hv s hl.1, by
      have := ih hl.2
      simpa [segsOk] using this⟩

/-- The whole substitution pass acts segment-wise: placeholders of present
tokens become their (first-entry) values, everything else is copied. -/
theorem substituteStr_render :
    ∀ (tokens : List (String × String)) (l : List Seg),
      segsOk l = true → (∀ kv ∈ tokens, tokOk kv = true) →
        substituteStr (renderSegs l) tokens = renderSegs (l.map (segSubst tokens)) := by
  intro tokens
  induction tokens with
  | nil =>
    intro l _ _
    have hid : ∀ l2 : List Seg, l2.map (segSubst []) = l2 := by
      intro l2
      induction l2 with
      | nil => rfl
      | cons s rest2 ih2 =>
        simp only [List.map_cons, ih2]
        cases s <;> rfl
    rw [hid]
    rfl
  | cons kv rest ih =>
    intro l hl htok
    have hkv := htok kv (List.mem_cons_self kv rest)
    simp only [tokOk, Bool.and_eq_true] at hkv
    have hstep := replaceAll_render kv.1 kv.2.data hkv.1 l hl
    simp only [substituteStr, List.foldl_cons]
    rw [hstep]
    have hok2 := segsOk_map_segRepl kv.1 kv.2.data hkv.2 l hl
    have ih2 := ih (l.map (segRepl kv.1 kv.2.data)) hok2
      (fun x hx => htok x (List.mem_cons_of_mem kv hx))
    simp only [substituteStr] at ih2
    rw [ih2, List.map_map]
    apply congrArg
    apply List.map_congr_left
    intro s _
    have := segSubst_cons kv.1 kv.2 rest s
    simpa using this

theorem segOk_segSubst (tokens : List (String × String))
    (htok : ∀ kv ∈ tokens, tokOk kv = true) (s : Seg) (hs : segOk s = true) :
    segOk (segSubst tokens s) = true := by
  cases s with
  | lit cs => exact hs
  | brTok n => exact hs
  | phTok n =>
    have heq : segSubst tokens (Seg.phTok n)
        = (match lookupTok tokens n with
            | some v => Seg.lit v.data
            | none => Seg.phTok n) := rfl
    rw [heq]
    rcases hfind : lookupTok tokens n with _ | v
    · exact hs
    · show litOk v.data = true
      simp only [lookupTok] at hfind
      rcases hf2 : tokens.find? (fun kv => kv.1 == n) with _ | kv2
      · rw [hf2] at hfind
        simp at hfind
      · have hmem := List.mem_of_find?_eq_some hf2
        have htk := htok kv2 hmem
        simp only [tokOk, Bool.and_eq_true] at htk
        have hfind2 : kv2.2 = v := by
          rw [hf2] at hfind
          simpa using hfind
        rw [← hfind2]
        exact htk.2

/-- The double-brace rewrite acts segment-wise on a substituted segment
list: exactly the double-brace units are rewritten to their input form. -/
theorem rewriteBr_render :
    ∀ l, segsOk l = true →
      rewriteBr (renderSegs l) = renderSegs (l.map segRw) := by
  intro l
  induction l with
  | nil => intro _; rfl
  | cons s rest ih =>
    intro hl
    simp only [segsOk, List.all_cons, Bool.and_eq_true] at hl
    have ihr := ih hl.2
    cases s with
    | lit cs =>
      simp only [List.map_cons, renderSegs, Seg.render, segRw]
      rw [rewriteBr_skip cs _ (litOk_no_open hl.1), ihr]
    | phTok n =>
      simp only [List.map_cons, renderSegs, Seg.render, segRw]
      rw [rewriteBr_ph n _ hl.1, ihr]
    | brTok n =>
      have hok := hl.1
      simp only [segOk, Bool.and_eq_true] at hok
      have hne : n.data ≠ [] := by
        have := hok.2
        simp only [Bool.not_eq_true'] at this
        intro hcontra
        rw [hcontra] at this
        simp at this
      simp only [List.map_cons, renderSegs, Seg.render, segRw]
      have hsh : ('{' :: '{' :: (n.data ++ '}' :: '}' :: [])) ++ renderSegs rest
          = '{' :: '{' :: (n.data ++ '}' :: '}' :: renderSegs rest) := by
        simp
      rw [hsh, rewriteBr_unit n _ hok.1 hne, ihr]

theorem segsOk_map_segSubst (tokens : List (String × String))
    (htok : ∀ kv ∈ tokens, tokOk kv = true) :
    ∀ l, segsOk l = true → segsOk (l.map (segSubst tokens)) = true := by
  intro l
  induction l with
  | nil => intro _; rfl
  | cons s rest ih =>
    intro hl
    simp only [segsOk, List.all_cons, Bool.and_eq_true] at hl ⊢
    simp only [List.map_cons, List.all_cons, Bool.and_eq_true]
    refine ⟨segOk_segSubst tokens htok s hl.1, ?_⟩
    have := ih hl.2
    simpa [segsOk] using this

/-! The C9 claim theorems. -/

/-- C9, counterexample.  The claim says the combined VS Code transformation
rewrites only the double-brace placeholders present in the original
fragment, without interaction with the dollar-brace substitution of the
same pass: combined = substitution and the rewrite of the original
occurrences, performed independently.  But the source rewrites AFTER
substituting, so a token value that contains double-brace text is itself
rewritten: for the fragment that is the single string dollar-brace-A-brace
and the token set A = double-brace-B-double-brace, the combined result is
the input form of B — the independent composition (rewrite of the original
fragment, which has no double-brace occurrence, then substitution) leaves
the double-brace text intact, and the two results differ. -/
theorem c9_counterexample :
    setupVSCodeConvert (Json.str "$\x7bA\x7d") [("A", "\x7b\x7bB\x7d\x7d")]
        = Json.stringify (Json.str "$\x7binput:B\x7d")
    ∧ substituteStr (rewriteBr (Json.stringify (Json.str "$\x7bA\x7d")))
          [("A", "\x7b\x7bB\x7d\x7d")]
        = Json.stringify (Json.str "\x7b\x7bB\x7d\x7d")
    ∧ setupVSCodeConvert (Json.str "$\x7bA\x7d") [("A", "\x7b\x7bB\x7d\x7d")]
        ≠ substituteStr (rewriteBr (Json.stringify (Json.str "$\x7bA\x7d")))
            [("A", "\x7b\x7bB\x7d\x7d")] := by
  exact ⟨by decide, by decide, by decide⟩

/-- C9 (amended): for every fragment text assembled from plain chunks,
dollar-brace placeholders and double-brace units (all well-formed: names
clean, chunks and token values free of placeholder-syntax characters, and
token keys regex-metacharacter-free so that each key's pattern matches
exactly its own literal placeholder), the combined VS Code transformation
equals the segment-wise independent composition: each present token's
placeholder becomes its value, each absent token's placeholder stays, and
exactly the double-brace units of the original fragment are rewritten to
their input form, unresolved.  Both restrictions are essential: a token
value carrying double-brace text is rewritten by the same pass (the
counterexample), and a key carrying a metacharacter matches placeholders
of other names. -/
theorem c9_amended_nointeraction (l : List Seg) (tokens : List (String × String))
    (hl : segsOk l = true) (htok : ∀ kv ∈ tokens, tokOkLit kv = true) :
    vscodeCombine (renderSegs l) tokens = renderSegs (l.map (segFinal tokens)) := by
  have htok2 : ∀ kv ∈ tokens, tokOk kv = true :=
    fun kv h => tokOk_of_tokOkLit (htok kv h)
  unfold vscodeCombine
  rw [substituteStr_render tokens l hl htok2,
    rewriteBr_render _ (segsOk_map_segSubst tokens htok2 l hl), List.map_map]
  rfl

/-- C9 witness: a fragment with a plain chunk, a resolved token placeholder
and a double-brace unit; the combined transformation resolves the former
and rewrites the latter to its input form. -/
theorem c9_amended_nointeraction_witness :
    vscodeCombine (renderSegs [Seg.lit "x:".data, Seg.phTok "A", Seg.brTok "B"])
        [("A", "val")]
      = renderSegs ([Seg.lit "x:".data, Seg.phTok "A", Seg.brTok "B"].map
          (segFinal [("A", "val")])) :=
  c9_amended_nointeraction [Seg.lit "x:".data, Seg.phTok "A", Seg.brTok "B"]
    [("A", "val")] (by decide)
    (by
      intro kv hkv
      simp only [List.mem_singleton] at hkv
      subst hkv
      decide)
